import Mathlib

/-!
The claat `update` subcommand: discovery, per-unit update pipeline and asset cleanup

A shallow embedding of `claat/cmd/update.go` (`CmdUpdate`, `updateCodelab`,
`scanPaths`, `walkPath`, `readMeta`) over an explicit model of the filesystem and
of the Go standard-library calls the file makes (`os.Lstat`, `os.Remove`,
`os.RemoveAll`, `ioutil.ReadFile`, `filepath.Join/Base/Dir/Walk`).

Conventions
* A path is what the program holds: the list of the components of a cleaned
  relative path, `[]` being `"."`; after `filepath.Clean` a `..` stands only in
  front. A location is where a path leads: the list of components from the root
  of the filesystem. `resolve cwd p` is the location of the path `p` for a
  process whose working directory is at `cwd`.
* A Go `error` is its message; `nil` is `none`.
* The filesystem is a finite association list from locations to entries; all
  operations treat it as a map (the first binding of a location is the entry,
  removing a location removes every binding of it). An entry is a directory or a
  non-directory; symbolic links to directories are outside the model.
* `filepath.Walk` is the standard library's algorithm, in which a directory is
  listed before the `WalkFunc` is called on it; `SkipAll`, which no closure of
  `update.go` returns, is left out. Its recursion is bounded by a fuel argument
  that counts the levels visited, and `none` means the fuel ran out.
* The collaborators defined in other files of the package (`slurpCodelab`,
  `codelabDir`, `driveClient`, `slurpImages`, `writeCodelab`), the constants
  `metaFilename` and `imgDirname`, the flag `globalGA`, `json.Unmarshal` and the
  working directory of the process are parameters, gathered in `Env`.
* Goroutines are modelled by the order in which their results reach the channel;
  the random sleep of `CmdUpdate` only bears on that order.
-/

namespace Claat

/-- A Go `error`, reduced to the text of `err.Error()`. -/
abbrev Error := String

/-- A cleaned relative path, as the program writes it: the list of its
components, `[]` standing for `"."`. -/
abbrev Path := List String

/-- A location in the filesystem: the components from the root, `[]` being the
root. -/
abbrev Loc := List String

/-- Where the path `p` leads from the working directory `cwd`: `..` climbs (the
root is its own parent), `.` and the empty component stay. -/
def resolve (cwd : Loc) (p : Path) : Loc :=
  p.foldl (fun loc c =>
    if c = ".." then loc.dropLast else if c = "." ∨ c = "" then loc else loc ++ [c]) cwd

/-- The text of a path, as `%s` prints it. -/
def Path.text (p : Path) : String :=
  if p = [] then "." else String.intercalate "/" p

/-! ## Filesystem -/

/-- What `os.Lstat` reports about an entry, with the permissions that decide
whether reading and unlinking it succeed, and the bytes of a regular file. -/
structure FileInfo where
  isDir : Bool
  readable : Bool
  removable : Bool
  content : String
deriving DecidableEq, Repr, Inhabited

/-- The filesystem state: the entries by location. -/
abbrev FS := List (Loc × FileInfo)

/-- A regular, readable, removable file with the given bytes. -/
def mkFile (content : String) : FileInfo := ⟨false, true, true, content⟩

/-- A readable, removable directory. -/
def mkDir : FileInfo := ⟨true, true, true, ""⟩

/-- A file name a directory listing can hold: not empty, not `.` and not `..`. -/
def properName (name : String) : Bool :=
  name != "" && name != "." && name != ".."

/-- The name under which `q` is a direct entry of directory `p`, if it is one. -/
def childName (p q : Loc) : Option String :=
  if q.dropLast = p then q.getLast? else none

/-- Byte-wise lexical order on code lists, the order of `sort.Strings`. -/
def lexLE : List Nat → List Nat → Bool
  | [], _ => true
  | _ :: _, [] => false
  | a :: as, b :: bs => decide (a < b) || (a == b && lexLE as bs)

/-- The order `sort.Strings` sorts names by. -/
def nameLE (a b : String) : Prop :=
  lexLE (a.toList.map Char.toNat) (b.toList.map Char.toNat) = true

instance nameLE.decidable : DecidableRel nameLE :=
  fun _ _ => inferInstanceAs (Decidable (lexLE _ _ = true))

/-- The names of the entries directly inside `p`, in listing order (unsorted). -/
def entryNames (fs : FS) (p : Loc) : List String :=
  (fs.filterMap (fun e => childName p e.1)).filter properName

/-- Well-formed filesystem: every component of every location is a proper file
name, and every entry other than the root lies directly inside an entry that is
a directory. -/
def FS.WF (fs : FS) : Prop :=
  ∀ e ∈ fs, (∀ c ∈ e.1, properName c = true) ∧
    (e.1 ≠ [] → ((fs.lookup e.1.dropLast).map FileInfo.isDir) = some true)

instance FS.WF.decidable (fs : FS) : Decidable (FS.WF fs) :=
  inferInstanceAs (Decidable (∀ e ∈ fs, (∀ c ∈ e.1, properName c = true) ∧
    (e.1 ≠ [] → _ = some true)))

/-- The greatest number of components of a location of the filesystem. -/
def FS.depth (fs : FS) : Nat :=
  (fs.map (fun e => e.1.length)).foldr max 0

/-- The entry at `q` is a non-directory. -/
def isFileAt (fs : FS) (q : Loc) : Prop :=
  (fs.lookup q).map FileInfo.isDir = some false

instance isFileAt.decidable (fs : FS) (q : Loc) : Decidable (isFileAt fs q) :=
  inferInstanceAs (Decidable (_ = some false))

namespace os

/-- Go `os.Lstat`: the entry the path leads to, or an error when there is none. -/
def Lstat (cwd : Loc) (fs : FS) (p : Path) : Except Error FileInfo :=
  match fs.lookup (resolve cwd p) with
  | some info => .ok info
  | none => .error ("lstat " ++ p.text ++ ": no such file or directory")

/-- Go `os.Remove`: unlinks the file or empty directory the path leads to; `.`,
a path that ends in `..` and the root of the filesystem cannot be removed. -/
def Remove (cwd : Loc) (fs : FS) (p : Path) : Option Error × FS :=
  if p = [] then (some "remove .: invalid argument", fs)
  else if p.getLast? = some ".." then
    (some ("remove " ++ p.text ++ ": directory not empty"), fs)
  else
    match fs.lookup (resolve cwd p) with
    | none => (some ("remove " ++ p.text ++ ": no such file or directory"), fs)
    | some info =>
      if !info.removable || (resolve cwd p).isEmpty then
        (some ("remove " ++ p.text ++ ": permission denied"), fs)
      else if info.isDir && !(entryNames fs (resolve cwd p)).isEmpty then
        (some ("remove " ++ p.text ++ ": directory not empty"), fs)
      else (none, fs.filter (fun e => e.1 != resolve cwd p))

/-- The entry cannot be unlinked: it is not removable, or it is the root. -/
def resists (e : Loc × FileInfo) : Bool :=
  !e.2.removable || e.1.isEmpty

/-- Whether the entry at `q` or one beneath it cannot be unlinked. -/
def blocked (fs : FS) (q : Loc) : Bool :=
  fs.any (fun e => q.isPrefixOf e.1 && resists e)

/-- Go `os.RemoveAll`: refuses `.` with `EINVAL` and removes nothing; otherwise
removes the entry the path leads to and everything beneath it that it can. The
error is nil when nothing at or beneath it resists (also when there is no such
entry), and names the first entry that resists otherwise, its path joined to
the parent of `p` as `removeAll` does. A directory reached through a path that
ends in `..` is emptied and then resists itself: `rmdir` refuses such a path. -/
def RemoveAll (cwd : Loc) (fs : FS) (p : Path) : Option Error × FS :=
  if p = [] then (some "RemoveAll .: invalid argument", fs)
  else
    ((match fs.find? (fun e => (resolve cwd p).isPrefixOf e.1 && resists e) with
      | some e => some ("unlinkat " ++ Path.text p.dropLast ++ "/" ++
          String.intercalate "/" (p.getLast?.toList ++ e.1.drop (resolve cwd p).length) ++
          ": permission denied")
      | none =>
        if p.getLast? = some ".." then
          some ("unlinkat " ++ Path.text p.dropLast ++ "/..: directory not empty")
        else none),
     fs.filter (fun e => !((resolve cwd p).isPrefixOf e.1) || blocked fs e.1 ||
       (decide (p.getLast? = some "..") && e.1 == resolve cwd p)))

end os

namespace ioutil

/-- Go `ioutil.ReadFile`: the bytes of the readable regular file the path leads
to. -/
def ReadFile (cwd : Loc) (fs : FS) (p : Path) : Except Error String :=
  match fs.lookup (resolve cwd p) with
  | none => .error ("open " ++ p.text ++ ": no such file or directory")
  | some info =>
    if info.isDir then .error ("read " ++ p.text ++ ": is a directory")
    else if !info.readable then .error ("open " ++ p.text ++ ": permission denied")
    else .ok info.content

end ioutil

namespace filepath

/-- Go `filepath.Join(p, elem)` on cleaned paths: `..` climbs, `.` and the empty
element are dropped by `Clean`. -/
def Join (p : Path) (elem : String) : Path :=
  if elem = ".." then
    (if p = [] ∨ p.getLast? = some ".." then p ++ [".."] else p.dropLast)
  else if elem = "." ∨ elem = "" then p
  else p ++ [elem]

/-- Go `filepath.Base`: the last element, `"."` for the empty path. -/
def Base (p : Path) : String := p.getLast?.getD "."

/-- Go `filepath.Dir`: all but the last element. -/
def Dir (p : Path) : Path := p.dropLast

/-- The non-nil errors a `WalkFunc` may return: the `SkipDir` sentinel or an
ordinary error. -/
inductive WalkErr where
  | SkipDir
  | other (err : Error)
deriving DecidableEq, Repr

/-- Go `filepath.WalkFunc`, a closure over state `α`: it receives the path, the
`FileInfo` (nil when `Lstat` failed) and the error met on the way, and may change
the filesystem. -/
abbrev WalkFunc (α : Type) :=
  Path → Option FileInfo → Option Error → FS × α → Option WalkErr × (FS × α)

/-- Go `readDirNames`: the sorted names of the entries of the readable directory
the path leads to. -/
def readDirNames (cwd : Loc) (fs : FS) (p : Path) : Except Error (List String) :=
  match fs.lookup (resolve cwd p) with
  | none => .error ("open " ++ p.text ++ ": no such file or directory")
  | some info =>
    if !info.isDir then .error ("readdirent " ++ p.text ++ ": not a directory")
    else if !info.readable then .error ("open " ++ p.text ++ ": permission denied")
    else .ok ((entryNames fs (resolve cwd p)).insertionSort nameLE)

/-- The `for _, name := range names` loop of Go's `walk`; `rec` is the recursive
call `walk(filename, fileInfo, walkFn)`. -/
def walkNames {α : Type} (cwd : Loc)
    (rec : Path → FileInfo → FS × α → Option (Option WalkErr × (FS × α)))
    (walkFn : WalkFunc α) (path : Path) :
    List String → FS × α → Option (Option WalkErr × (FS × α))
  | [], s => some (none, s)
  | name :: rest, s =>
    let filename := Join path name
    match os.Lstat cwd s.1 filename with
    | .error err =>
      match walkFn filename none (some err) s with
      | (some (.other e), s1) => some (some (.other e), s1)
      | (_, s1) => walkNames cwd rec walkFn path rest s1
    | .ok fileInfo =>
      match rec filename fileInfo s with
      | none => none
      | some (none, s1) => walkNames cwd rec walkFn path rest s1
      | some (some err, s1) =>
        if !fileInfo.isDir || err != .SkipDir then some (some err, s1)
        else walkNames cwd rec walkFn path rest s1

/-- Go `walk`: visits `path`, then, for a directory whose listing and visit both
succeeded, its entries in sorted order. `none`: the fuel ran out. -/
def walk {α : Type} (cwd : Loc) (walkFn : WalkFunc α) :
    Nat → Path → FileInfo → FS × α → Option (Option WalkErr × (FS × α))
  | 0, _, _, _ => none
  | fuel + 1, path, info, s =>
    if !info.isDir then some (walkFn path (some info) none s)
    else
      match readDirNames cwd s.1 path with
      | .error err => some (walkFn path (some info) (some err) s)
      | .ok names =>
        match walkFn path (some info) none s with
        | (some err1, s1) => some (some err1, s1)
        | (none, s1) => walkNames cwd (walk cwd walkFn fuel) walkFn path names s1

/-- The error `Walk` hands back: `SkipDir` becomes nil. -/
def walkResult : Option WalkErr → Option Error
  | none => none
  | some .SkipDir => none
  | some (.other e) => some e

/-- Go `filepath.Walk(root, walkFn)`. -/
def Walk {α : Type} (cwd : Loc) (walkFn : WalkFunc α) (fuel : Nat) (root : Path)
    (s : FS × α) : Option (Option Error × (FS × α)) :=
  match os.Lstat cwd s.1 root with
  | .error err =>
    let r := walkFn root none (some err) s
    some (walkResult r.1, r.2)
  | .ok info =>
    match walk cwd walkFn fuel root info s with
    | none => none
    | some (err, s1) => some (walkResult err, s1)

end filepath

/-! ## Data model -/

namespace types

/-- Modelled from the spec: the identity part of a metadata record (package
`types` is not among the sources), the struct `update.go` reaches as `meta.Meta`
and `clab.Meta`; the fields are those `update.go` reads. -/
structure Meta where
  ID : String
  Source : String
deriving DecidableEq, Repr

/-- Modelled from the spec: the export context of a metadata record, the struct
`update.go` reaches as `meta.Context`: the output options and the time stamp
`Updated`, a `ContextTime`, nil when absent. -/
structure Context where
  Format : String
  Prefix : String
  MainGA : String
  Updated : Option Nat
deriving DecidableEq, Repr

/-- Modelled from the spec: the stored record, an export context together with
the unit's identity (Go embeds both structs). -/
structure ContextMeta where
  Context : Context
  Meta : Meta
deriving DecidableEq, Repr

/-- Modelled from the spec: a parsed document, its identity and its steps. -/
structure Codelab where
  Meta : Meta
  Steps : List String
deriving DecidableEq, Repr

end types

/-- Modelled from the spec: the source-kind tag of a parsed unit. -/
inductive srcType where
  | srcGoogleDoc
  | srcMarkdown
deriving DecidableEq, Repr

/-- Modelled from the spec: the parsed unit `slurpCodelab` returns: the document,
its source kind and its modification time. -/
structure codelab where
  Codelab : types.Codelab
  typ : srcType
  mod : Nat
deriving DecidableEq, Repr

/-- An authenticated `*http.Client`. -/
structure Client where
  id : Nat
deriving DecidableEq, Repr

/-- The asset map `slurpImages` returns, a Go `map[string]string`. -/
abbrev ImgMap := List (String × String)

/-- The working directory of the process, the package-level constants, the global
flag and the collaborators of `update.go` that live in other files: they are
parameters of the embedding. `slurpImages` and `writeCodelab` change the
filesystem (also when they fail); `slurpImages` rewrites the steps it is given;
the others only read. -/
structure Env where
  cwd : Loc
  metaFilename : String
  imgDirname : String
  globalGA : String
  unmarshal : String → Except Error types.ContextMeta
  slurpCodelab : FS → String → Except Error codelab
  codelabDir : Path → types.Meta → Path
  driveClient : FS → Except Error Client
  slurpImages : Option Client → String → Path → List String → FS →
    Except Error (ImgMap × List String) × FS
  writeCodelab : Path → types.Codelab → types.Context → FS → Option Error × FS

/-! ## `update.go` -/

/-- Go `readMeta`: reads and decodes the record, defaulting an empty `Format`. -/
def readMeta (env : Env) (fs : FS) (file : Path) : Except Error types.ContextMeta :=
  match ioutil.ReadFile env.cwd fs file with
  | .error err => .error err
  | .ok b =>
    match env.unmarshal b with
    | .error err => .error err
    | .ok cm =>
      if cm.Context.Format = "" then
        .ok { cm with Context := { cm.Context with Format := "html" } }
      else .ok cm

/-- The `visit` closure of `updateCodelab`. A nil `FileInfo` with a nil error
(which `Walk` never passes) would be a nil dereference; it is reported as an
error. -/
def visit (cwd : Loc) (imgdir : Path) (imgmap : ImgMap) : filepath.WalkFunc Unit :=
  fun p fi err s =>
    if err.isSome || p == imgdir then (err.map .other, s)
    else
      match fi with
      | none => (some (.other "nil pointer dereference"), s)
      | some fi =>
        if fi.isDir then (some .SkipDir, s)
        else if (imgmap.lookup (filepath.Base p)).isNone then
          let r := os.Remove cwd s.1 p
          (r.1.map .other, (r.2, s.2))
        else (none, s)

/-- The overrides of `updateCodelab` (`meta.Prefix = prefix` when `prefix` is not
empty, `meta.MainGA = *globalGA` when the flag is not empty). -/
def overrides (env : Env) (pfx : String) (cm0 : types.ContextMeta) : types.ContextMeta :=
  let cm1 : types.ContextMeta :=
    if pfx ≠ "" then { cm0 with Context := { cm0.Context with Prefix := pfx } } else cm0
  if env.globalGA ≠ "" then
    { cm1 with Context := { cm1.Context with MainGA := env.globalGA } }
  else cm1

/-- The stamp of `updateCodelab`: `meta.Context.Updated = &updated`, the parsed
unit's modification time. -/
def stamp (clab : codelab) (cm : types.ContextMeta) : types.ContextMeta :=
  { cm with Context := { cm.Context with Updated := some clab.mod } }

/-- The `basedir` of `updateCodelab`: `filepath.Join(dir, "..")`. -/
def basedirOf (dir : Path) : Path := filepath.Join dir ".."

/-- The `newdir` of `updateCodelab`: the canonical directory of the parsed unit. -/
def newdirOf (env : Env) (dir : Path) (clab : codelab) : Path :=
  env.codelabDir (basedirOf dir) clab.Codelab.Meta

/-- The `imgdir` of `updateCodelab`: `filepath.Join(newdir, imgDirname)`. -/
def imgdirOf (env : Env) (dir : Path) (clab : codelab) : Path :=
  filepath.Join (newdirOf env dir clab) env.imgDirname

/-- The `old` of `updateCodelab`: the canonical directory of the stored record. -/
def olddirOf (env : Env) (dir : Path) (cm : types.ContextMeta) : Path :=
  env.codelabDir (basedirOf dir) cm.Meta

/-- The client `updateCodelab` passes to `slurpImages`: built by `driveClient` for
a Google Doc source, nil otherwise. -/
def clientFor (env : Env) (clab : codelab) (fs : FS) : Except Error (Option Client) :=
  if clab.typ = .srcGoogleDoc then
    match env.driveClient fs with
    | .error err => .error err
    | .ok c => .ok (some c)
  else .ok none

/-- Go `updateCodelab(dir, prefix)`: the returned `*types.Meta` (nil is `none`),
the returned error, and the filesystem it leaves. -/
def updateCodelab (env : Env) (fuel : Nat) (dir : Path) (pfx : String) (fs : FS) :
    Option (Option types.Meta × Option Error × FS) :=
  match readMeta env fs (filepath.Join dir env.metaFilename) with
  | .error err => some (none, some err, fs)
  | .ok cm0 =>
    let cm1 := overrides env pfx cm0
    match env.slurpCodelab fs cm1.Meta.Source with
    | .error err => some (none, some err, fs)
    | .ok clab =>
      let cm := stamp clab cm1
      let newdir := newdirOf env dir clab
      let imgdir := imgdirOf env dir clab
      match clientFor env clab fs with
      | .error err => some (none, some err, fs)
      | .ok client =>
        match env.slurpImages client cm.Meta.Source imgdir clab.Codelab.Steps fs with
        | (.error err, fs1) => some (none, some err, fs1)
        | (.ok (imgmap, steps), fs1) =>
          match env.writeCodelab newdir { clab.Codelab with Steps := steps }
              cm.Context fs1 with
          | (some err, fs2) => some (none, some err, fs2)
          | (none, fs2) =>
            let old := olddirOf env dir cm
            if old ≠ newdir then
              let r := os.RemoveAll env.cwd fs2 old
              some (some cm.Meta, r.1, r.2)
            else
              match filepath.Walk env.cwd (visit env.cwd imgdir imgmap) fuel imgdir
                  (fs2, ()) with
              | none => none
              | some (err, s) => some (some cm.Meta, err, s.1)

/-- Modelled from the spec: `unique` is not among the sources; the spec has the
scan results "unioned and de-duplicated". It keeps the first occurrence of each
element, in order. -/
def unique (a : List Path) : List Path :=
  a.foldl (fun res s => if s ∈ res then res else res ++ [s]) []

/-- The closure `walkPath` passes to `filepath.Walk`; its state is `dirs`. -/
def walkPathFn (env : Env) : filepath.WalkFunc (List Path) :=
  fun p fi err s =>
    match err with
    | some e => (some (.other e), s)
    | none =>
      match fi with
      | none => (some (.other "nil pointer dereference"), s)
      | some fi =>
        if fi.isDir then (none, s)
        else if filepath.Base p = env.metaFilename then
          (none, (s.1, s.2 ++ [filepath.Dir p]))
        else (none, s)

/-- Go `walkPath(root)`: the directories found and the error of the walk. -/
def walkPath (env : Env) (fuel : Nat) (fs : FS) (root : Path) :
    Option (List Path × Option Error) :=
  match filepath.Walk env.cwd (walkPathFn env) fuel root (fs, []) with
  | none => none
  | some (err, s) => some (s.2, err)

/-- The receiving loop of `scanPaths` over the roots in the order their goroutines
deliver. -/
def scanLoop (env : Env) (fuel : Nat) (fs : FS) :
    List Path → List Path → Option (Except Error (List Path))
  | [], dirs => some (.ok (unique dirs))
  | r :: rest, dirs =>
    match walkPath env fuel fs r with
    | none => none
    | some (_, some err) => some (.error (r.text ++ ": " ++ err))
    | some (ds, none) => scanLoop env fuel fs rest (dirs ++ ds)

/-- Go `scanPaths(roots)`. Each root is walked by a goroutine of its own, none of
which changes the filesystem; `arrival` lists the roots in the order their
results reach the channel, which may be any permutation of `roots`. -/
def scanPaths (env : Env) (fuel : Nat) (fs : FS) (arrival : List Path) :
    Option (Except Error (List Path)) :=
  scanLoop env fuel fs arrival []

/-- The `result` struct of `CmdUpdate`. -/
structure result where
  dir : Path
  meta : Option types.Meta
  err : Option Error
deriving DecidableEq, Repr

/-- What `CmdUpdate` reports for one result: `errorf(reportErr, dir, err)`, or
`log.Printf(reportOk, id)`; `nilDeref` is the nil dereference of `res.meta.ID`. -/
inductive Report where
  | failure (dir : Path) (err : Error)
  | success (id : String)
  | nilDeref
deriving DecidableEq, Repr

/-- The report is an error report. -/
def Report.isFailure : Report → Bool
  | .failure _ _ => true
  | _ => false

/-- The report is a success report. -/
def Report.isSuccess : Report → Bool
  | .success _ => true
  | _ => false

/-- The body of the receiving loop of `CmdUpdate` for one result. -/
def report (res : result) : Report :=
  match res.err with
  | some err => .failure res.dir err
  | none =>
    match res.meta with
    | some m => .success m.ID
    | none => .nilDeref

/-- The goroutines of `CmdUpdate`, each run to completion in the order given
(the order in which they send their results). -/
def runUnits (env : Env) (fuel : Nat) (pfx : String) :
    List Path → FS → Option (List result × FS)
  | [], fs => some ([], fs)
  | d :: rest, fs =>
    match updateCodelab env fuel d pfx fs with
    | none => none
    | some (m, err, fs1) =>
      match runUnits env fuel pfx rest fs1 with
      | none => none
      | some (rs, fs2) => some (⟨d, m, err⟩ :: rs, fs2)

/-- How `CmdUpdate` ends: `log.Fatalf`, or a return after the reports. -/
inductive Outcome where
  | fatal (msg : String)
  | returned (reports : List Report) (fs : FS)
deriving DecidableEq, Repr

/-- Go `CmdUpdate(prefix)`; `args` is `flag.Args()`, and `scanOrder`, `unitOrder`
give the order in which the goroutines of the scan and of the update deliver. -/
def CmdUpdate (env : Env) (fuel : Nat) (pfx : String) (args : List Path)
    (scanOrder unitOrder : List Path → List Path) (fs : FS) : Option Outcome :=
  let roots := if args.length = 0 then [[]] else args
  match scanPaths env fuel fs (scanOrder roots) with
  | none => none
  | some (.error err) => some (.fatal err)
  | some (.ok dirs) =>
    if dirs.length = 0 then
      some (.fatal ("no codelabs found in " ++ ", ".intercalate (roots.map Path.text)))
    else
      match runUnits env fuel pfx (unitOrder dirs) fs with
      | none => none
      | some (rs, fs1) => some (.returned (rs.map report) fs1)

/-! ## Vocabulary of the statements -/

/-- An orphan of the asset directory at `loc`: a non-directory direct entry whose
base name is not a key of the asset map. -/
def Orphan (loc : Loc) (imgmap : ImgMap) (fs : FS) (q : Loc) : Prop :=
  ∃ name info, q = loc ++ [name] ∧ fs.lookup q = some info ∧ info.isDir = false ∧
    imgmap.lookup name = none

/-- The filesystem `fs'` is `fs` with nothing but orphans of the asset directory
at `loc` removed. -/
def OnlyOrphansRemoved (loc : Loc) (imgmap : ImgMap) (fs fs' : FS) : Prop :=
  ∀ q, fs'.lookup q = fs.lookup q ∨ (fs'.lookup q = none ∧ Orphan loc imgmap fs q)

/-- The results `rs` and the filesystem `fs'` are what the units `ds` give when
each `updateCodelab` runs, in this order, on the filesystem the one before it
left, starting from `fs`. -/
inductive UnitsRun (env : Env) (fuel : Nat) (pfx : String) :
    List Path → FS → List result → FS → Prop where
  | nil (fs : FS) : UnitsRun env fuel pfx [] fs [] fs
  | cons {d : Path} {ds : List Path} {fs fs1 fs2 : FS} {m : Option types.Meta}
      {err : Option Error} {rs : List result}
      (hd : updateCodelab env fuel d pfx fs = some (m, err, fs1))
      (htl : UnitsRun env fuel pfx ds fs1 rs fs2) :
      UnitsRun env fuel pfx (d :: ds) fs (⟨d, m, err⟩ :: rs) fs2

/-- Every step of `updateCodelab` before the cleanup succeeds on `fs`: the record
loads as `cm0`, the source parses to `clab`, the client (when one is required) is
built, `slurpImages` returns the asset map `imgmap` and the rewritten `steps` and
leaves `fs1`, and `writeCodelab` returns nil and leaves `fs2`. -/
def StepsOk (env : Env) (dir : Path) (pfx : String) (fs : FS) (cm0 : types.ContextMeta)
    (clab : codelab) (client : Option Client) (imgmap : ImgMap) (steps : List String)
    (fs1 fs2 : FS) : Prop :=
  readMeta env fs (filepath.Join dir env.metaFilename) = .ok cm0 ∧
  env.slurpCodelab fs (overrides env pfx cm0).Meta.Source = .ok clab ∧
  clientFor env clab fs = .ok client ∧
  env.slurpImages client (stamp clab (overrides env pfx cm0)).Meta.Source
    (imgdirOf env dir clab) clab.Codelab.Steps fs = (.ok (imgmap, steps), fs1) ∧
  env.writeCodelab (newdirOf env dir clab) { clab.Codelab with Steps := steps }
    (stamp clab (overrides env pfx cm0)).Context fs1 = (none, fs2)

/-! ## A small workspace, used to exercise the statements on concrete inputs -/

/-- The components of a slash-separated character list. -/
def splitSlash : List Char → List (List Char)
  | [] => [[]]
  | c :: cs =>
    match splitSlash cs with
    | [] => [[c]]
    | w :: ws => if c = '/' then [] :: w :: ws else (c :: w) :: ws

/-- The non-empty components of a slash-separated string. -/
def components (s : String) : Path :=
  ((splitSlash s.toList).map String.mk).filter (fun c => c != "")

/-- Adds the entry unless the location is already bound. -/
def ensure (fs : FS) (q : Loc) (info : FileInfo) : FS :=
  if (fs.lookup q).isSome then fs else fs ++ [(q, info)]

/-- Replaces or adds the regular file at the location. -/
def putFile (fs : FS) (q : Loc) (content : String) : FS :=
  fs.filter (fun e => e.1 != q) ++ [(q, mkFile content)]

/-- Collaborators for the examples, for a process working at `cwd`. A record file
holds the unit's ID, which is also its source reference; a record reading `bad`
does not decode. Upstream, the source `old` now carries the ID `new` and the
source `foo` the ID `foo/bar`; every other source carries its own name; the
source `gone` cannot be fetched. `codelabDir` is not among the sources: as in the
spec's example (`/out/old-id`, `/out/new-id`) the canonical directory is the base
directory joined with the ID. The only asset a unit references is `a.png`. -/
def demoEnvAt (cwd : Loc) : Env where
  cwd := cwd
  metaFilename := "codelab.json"
  imgDirname := "img"
  globalGA := ""
  unmarshal := fun b =>
    if b = "bad" then .error "invalid character b looking for beginning of value"
    else .ok ⟨⟨"", "", "", none⟩, ⟨b, b⟩⟩
  slurpCodelab := fun _ src =>
    if src = "gone" then .error "fetch: not found"
    else if src = "old" then .ok ⟨⟨⟨"new", src⟩, ["step"]⟩, .srcMarkdown, 7⟩
    else if src = "foo" then .ok ⟨⟨⟨"foo/bar", src⟩, ["step"]⟩, .srcMarkdown, 7⟩
    else .ok ⟨⟨⟨src, src⟩, ["step"]⟩, .srcMarkdown, 7⟩
  codelabDir := fun base m => base ++ components m.ID
  driveClient := fun _ => .error "no credentials"
  slurpImages := fun _ _ imgdir steps fs =>
    (.ok ([("a.png", "a.png")], steps),
      putFile (ensure (ensure fs (resolve cwd imgdir).dropLast mkDir) (resolve cwd imgdir) mkDir)
        (resolve cwd imgdir ++ ["a.png"]) "png")
  writeCodelab := fun dir c _ fs =>
    (none, putFile (putFile (ensure fs (resolve cwd dir) mkDir)
      (resolve cwd dir ++ ["codelab.json"]) c.Meta.Source)
      (resolve cwd dir ++ ["index.html"]) "html")

/-- The collaborators for a process working at the root of the filesystem. -/
def demoEnv : Env := demoEnvAt []

/-- A workspace with four units under `out`: `lab` (unchanged upstream, with the
assets `a.png`, `b.png` and a subdirectory `sub`), `old` (renamed upstream to
`new`), `foo` (renamed upstream to `foo/bar`) and `bad` (malformed record). -/
def demoFS : FS :=
  [([], mkDir), (["out"], mkDir),
   (["out", "lab"], mkDir), (["out", "lab", "codelab.json"], mkFile "lab"),
   (["out", "lab", "img"], mkDir),
   (["out", "lab", "img", "b.png"], mkFile "png"),
   (["out", "lab", "img", "a.png"], mkFile "png"),
   (["out", "lab", "img", "sub"], mkDir),
   (["out", "lab", "img", "sub", "c.png"], mkFile "png"),
   (["out", "old"], mkDir), (["out", "old", "codelab.json"], mkFile "old"),
   (["out", "foo"], mkDir), (["out", "foo", "codelab.json"], mkFile "foo"),
   (["out", "bad"], mkDir), (["out", "bad", "codelab.json"], mkFile "bad")]

/-- The record `readMeta` loads for the unit `out/lab`. -/
def demoLabMeta : types.ContextMeta := ⟨⟨"html", "", "", none⟩, ⟨"lab", "lab"⟩⟩

/-- The parsed unit of the source `lab`. -/
def demoLabClab : codelab := ⟨⟨⟨"lab", "lab"⟩, ["step"]⟩, .srcMarkdown, 7⟩

/-- The filesystem `slurpImages` leaves when `out/lab` is updated. -/
def demoLabFS1 : FS :=
  putFile demoFS ["out", "lab", "img", "a.png"] "png"

/-- The filesystem `writeCodelab` leaves when `out/lab` is updated. -/
def demoLabFS2 : FS :=
  putFile (putFile demoLabFS1 ["out", "lab", "codelab.json"] "lab")
    ["out", "lab", "index.html"] "html"

/-- The filesystem the cleanup leaves when `out/lab` is updated. -/
def demoLabFS3 : FS :=
  demoLabFS2.filter (fun e => e.1 != ["out", "lab", "img", "b.png"])

/-- The record `readMeta` loads for the unit `out/old`. -/
def demoOldMeta : types.ContextMeta := ⟨⟨"html", "", "", none⟩, ⟨"old", "old"⟩⟩

/-- The parsed unit of the source `old`: upstream, its ID is now `new`. -/
def demoOldClab : codelab := ⟨⟨⟨"new", "old"⟩, ["step"]⟩, .srcMarkdown, 7⟩

/-- The filesystem `slurpImages` leaves when `out/old` is updated. -/
def demoOldFS1 : FS :=
  (demoEnv.slurpImages none "old" ["out", "new", "img"] ["step"] demoFS).2

/-- The filesystem `writeCodelab` leaves when `out/old` is updated. -/
def demoOldFS2 : FS :=
  (demoEnv.writeCodelab ["out", "new"] ⟨⟨"new", "old"⟩, ["step"]⟩
    ⟨"html", "", "", some 7⟩ demoOldFS1).2

/-- The filesystem the cleanup leaves when `out/old` is updated. -/
def demoOldFS3 : FS := (os.RemoveAll [] demoOldFS2 ["out", "old"]).2

/-- The record `readMeta` loads for the unit `out/foo`. -/
def demoFooMeta : types.ContextMeta := ⟨⟨"html", "", "", none⟩, ⟨"foo", "foo"⟩⟩

/-- The parsed unit of the source `foo`: upstream, its ID is now `foo/bar`. -/
def demoFooClab : codelab := ⟨⟨⟨"foo/bar", "foo"⟩, ["step"]⟩, .srcMarkdown, 7⟩

/-- The filesystem `slurpImages` leaves when `out/foo` is updated. -/
def demoFooFS1 : FS :=
  (demoEnv.slurpImages none "foo" ["out", "foo", "bar", "img"] ["step"] demoFS).2

/-- The filesystem `writeCodelab` leaves when `out/foo` is updated. -/
def demoFooFS2 : FS :=
  (demoEnv.writeCodelab ["out", "foo", "bar"] ⟨⟨"foo/bar", "foo"⟩, ["step"]⟩
    ⟨"html", "", "", some 7⟩ demoFooFS1).2

/-- The filesystem the cleanup leaves when `out/foo` is updated. -/
def demoFooFS3 : FS := (os.RemoveAll [] demoFooFS2 ["out", "foo"]).2

/-- A workspace whose only unit has a source that cannot be fetched. -/
def demoGoneFS : FS :=
  [([], mkDir), (["x"], mkDir), (["x", "codelab.json"], mkFile "gone")]

/-! ## Lemmas on the filesystem -/

theorem lookup_filter_ne (fs : FS) (p q : Path) :
    (fs.filter (fun e => e.1 != p)).lookup q = if q = p then none else fs.lookup q := by
  induction fs with
  | nil => simp
  | cons e fs ih =>
    obtain ⟨k, v⟩ := e
    by_cases hk : k = p
    · subst hk
      simp only [List.filter_cons, bne_self_eq_false, Bool.false_eq_true, ↓reduceIte, ih,
        List.lookup_cons]
      by_cases hq : q = k
      · simp [hq]
      · have : (q == k) = false := by simpa using hq
        simp [hq, this]
    · have hkp : (k != p) = true := by simpa using hk
      simp only [List.filter_cons, hkp, ↓reduceIte, List.lookup_cons, ih]
      by_cases hq : q = k
      · subst hq
        simp [hk]
      · have : (q == k) = false := by simpa using hq
        simp [this]

theorem lookup_eq_some_mem {fs : FS} {q : Path} {info : FileInfo}
    (h : fs.lookup q = some info) : (q, info) ∈ fs := by
  induction fs with
  | nil => simp at h
  | cons e fs ih =>
    obtain ⟨k, v⟩ := e
    rw [List.lookup_cons] at h
    by_cases hq : q = k
    · subst hq
      simp at h
      simp [h]
    · have : (q == k) = false := by simpa using hq
      rw [this] at h
      exact List.mem_cons_of_mem _ (ih h)

theorem lookup_ne_none_of_mem {fs : FS} {q : Path} {info : FileInfo}
    (h : (q, info) ∈ fs) : fs.lookup q ≠ none := by
  induction fs with
  | nil => simp at h
  | cons e fs ih =>
    obtain ⟨k, v⟩ := e
    rw [List.lookup_cons]
    by_cases hq : q = k
    · subst hq
      simp
    · have hb : (q == k) = false := by simpa using hq
      rw [hb]
      rcases List.mem_cons.1 h with h | h
      · simp at h; exact absurd h.1 hq
      · exact ih h

theorem Join_proper {name : String} (h : properName name = true) (p : Path) :
    filepath.Join p name = p ++ [name] := by
  unfold properName at h
  simp at h
  simp [filepath.Join, h]

theorem Base_concat (p : Path) (name : String) : filepath.Base (p ++ [name]) = name := by
  simp [filepath.Base]

theorem mem_entryNames {fs : FS} {p : Path} {name : String} :
    name ∈ entryNames fs p ↔ properName name = true ∧ ∃ info, (p ++ [name], info) ∈ fs := by
  unfold entryNames childName
  simp only [List.mem_filter, List.mem_filterMap]
  constructor
  · rintro ⟨⟨e, he, hc⟩, hp⟩
    refine ⟨hp, e.2, ?_⟩
    split at hc
    · rename_i hd
      have := List.dropLast_append_getLast? _ hc
      rw [hd] at this
      rw [this]
      exact he
    · simp at hc
  · rintro ⟨hp, info, hi⟩
    exact ⟨⟨(p ++ [name], info), hi, by simp⟩, hp⟩

theorem resolve_concat (cwd : Loc) (p : Path) {name : String}
    (h : properName name = true) : resolve cwd (p ++ [name]) = resolve cwd p ++ [name] := by
  unfold properName at h
  simp at h
  simp [resolve, List.foldl_append, h]

theorem resolve_append (cwd : Loc) (p rest : Path)
    (h : ∀ c ∈ rest, properName c = true) :
    resolve cwd (p ++ rest) = resolve cwd p ++ rest := by
  induction rest using List.reverseRecOn with
  | nil => simp
  | append_singleton xs x ih =>
    have hx : properName x = true := h x (by simp)
    have hxs : ∀ c ∈ xs, properName c = true := fun c hc => h c (by simp [hc])
    rw [← List.append_assoc, resolve_concat cwd (p ++ xs) hx, ih hxs, List.append_assoc]

open filepath

theorem OnlyOrphansRemoved.refl (loc : Loc) (imgmap : ImgMap) (fs : FS) :
    OnlyOrphansRemoved loc imgmap fs fs := fun _ => Or.inl rfl

theorem OnlyOrphansRemoved.trans {loc : Loc} {imgmap : ImgMap} {a b c : FS}
    (h1 : OnlyOrphansRemoved loc imgmap a b) (h2 : OnlyOrphansRemoved loc imgmap b c) :
    OnlyOrphansRemoved loc imgmap a c := by
  intro q
  rcases h2 q with h | ⟨hn, name, info, hq, hl, hd, hm⟩
  · rcases h1 q with h' | ⟨hn', ho⟩
    · exact Or.inl (h.trans h')
    · exact Or.inr ⟨h.trans hn', ho⟩
  · rcases h1 q with h' | ⟨hn', _⟩
    · exact Or.inr ⟨hn, name, info, hq, h' ▸ hl, hd, hm⟩
    · rw [hn'] at hl; simp at hl

theorem concat_ne_self (p : Path) (name : String) : p ++ [name] ≠ p := by
  intro h
  have := congrArg List.length h
  simp at this

/-- What `walk` does at a direct entry of the asset directory. -/
theorem walk_visit_child (cwd : Loc) (imgdir : Path) (imgmap : ImgMap) (k : Nat) (fs : FS)
    (name : String) (info : FileInfo) (hname : properName name = true)
    (hq : fs.lookup (resolve cwd imgdir ++ [name]) = some info) :
    ∃ r fs1, walk cwd (visit cwd imgdir imgmap) (k + 1) (imgdir ++ [name]) info (fs, ()) =
        some (r, (fs1, ())) ∧
      OnlyOrphansRemoved (resolve cwd imgdir) imgmap fs fs1 ∧
      (info.isDir = true → r ≠ none ∧ fs1 = fs) ∧
      (info.isDir = false → r ≠ some .SkipDir ∧
        (r = none → imgmap.lookup name = none →
          fs1.lookup (resolve cwd imgdir ++ [name]) = none)) := by
  have hne : ((imgdir ++ [name]) == imgdir) = false := by
    simp
  have hres := resolve_concat cwd imgdir hname
  have hdd : ¬ name = ".." := by
    intro h
    rw [h] at hname
    exact absurd hname (by decide)
  cases hd : info.isDir
  · -- a non-directory
    cases hm : imgmap.lookup name
    · -- not in the map: os.Remove
      cases hr : info.removable
      · refine ⟨some (.other ("remove " ++ Path.text (imgdir ++ [name]) ++ ": permission denied")),
          fs, ?_, OnlyOrphansRemoved.refl _ _ _, by simp, by simp⟩
        simp [walk, hd, visit, hne, Base_concat, hm, os.Remove, hres, hq, hr, hdd]
      · refine ⟨none, fs.filter (fun e => e.1 != resolve cwd imgdir ++ [name]), ?_, ?_,
          by simp, ?_⟩
        · simp [walk, hd, visit, hne, Base_concat, hm, os.Remove, hres, hq, hr, hdd]
        · intro q
          rw [lookup_filter_ne]
          by_cases hqq : q = resolve cwd imgdir ++ [name]
          · right
            simp only [hqq, ↓reduceIte, true_and]
            exact ⟨name, info, rfl, hq, hd, hm⟩
          · left; simp [hqq]
        · simp [lookup_filter_ne]
    · rename_i v
      refine ⟨none, fs, ?_, OnlyOrphansRemoved.refl _ _ _, by simp, by simp [hm]⟩
      simp [walk, hd, visit, hne, Base_concat, hm]
  · -- a directory: skipped, or the listing error is handed back
    cases hrd : readDirNames cwd fs (imgdir ++ [name]) with
    | error err =>
      refine ⟨some (.other err), fs, ?_, OnlyOrphansRemoved.refl _ _ _, by simp, by simp⟩
      simp [walk, hd, hrd, visit]
    | ok names =>
      refine ⟨some .SkipDir, fs, ?_, OnlyOrphansRemoved.refl _ _ _, by simp, by simp⟩
      simp [walk, hd, hrd, visit, hne]

/-- The loop of `walk` over the entries of the asset directory. -/
theorem walkNames_visit (cwd : Loc) (imgdir : Path) (imgmap : ImgMap) (k : Nat)
    (names : List String) (hp : ∀ n ∈ names, properName n = true) (fs : FS) :
    ∃ r fs', walkNames cwd (walk cwd (visit cwd imgdir imgmap) (k + 1))
        (visit cwd imgdir imgmap) imgdir names (fs, ()) = some (r, (fs', ())) ∧
      OnlyOrphansRemoved (resolve cwd imgdir) imgmap fs fs' ∧
      r ≠ some .SkipDir ∧
      (r = none → ∀ n ∈ names,
        Orphan (resolve cwd imgdir) imgmap fs (resolve cwd imgdir ++ [n]) →
        fs'.lookup (resolve cwd imgdir ++ [n]) = none) := by
  induction names generalizing fs with
  | nil => exact ⟨none, fs, rfl, OnlyOrphansRemoved.refl _ _ _, by simp, by simp⟩
  | cons name rest ih =>
    have hname : properName name = true := hp name (List.mem_cons_self _ _)
    have hrest : ∀ n ∈ rest, properName n = true := fun n hn => hp n (List.mem_cons_of_mem _ hn)
    have hne : ((imgdir ++ [name]) == imgdir) = false := by
      simp
    have hres := resolve_concat cwd imgdir hname
    cases hl : fs.lookup (resolve cwd imgdir ++ [name]) with
    | none =>
      refine ⟨some (.other ("lstat " ++ Path.text (imgdir ++ [name]) ++
        ": no such file or directory")), fs, ?_, OnlyOrphansRemoved.refl _ _ _, by simp, by simp⟩
      simp [walkNames, Join_proper hname, os.Lstat, hres, hl, visit]
    | some info =>
      obtain ⟨r1, fs1, hw, hoo, hdir, hfile⟩ :=
        walk_visit_child cwd imgdir imgmap k fs name info hname hl
      obtain ⟨r, fs', hw', hoo', hskip, hgone⟩ := ih hrest fs1
      have key : ∀ n ∈ rest, Orphan (resolve cwd imgdir) imgmap fs (resolve cwd imgdir ++ [n]) →
          r = none → fs'.lookup (resolve cwd imgdir ++ [n]) = none := by
        intro n hn ho hr
        rcases hoo (resolve cwd imgdir ++ [n]) with h | ⟨h, _⟩
        · obtain ⟨n', i', he, hl', hd', hm'⟩ := ho
          exact hgone hr n hn ⟨n', i', he, h ▸ hl', hd', hm'⟩
        · rcases hoo' (resolve cwd imgdir ++ [n]) with h' | ⟨h', _⟩
          · exact h'.trans h
          · exact h'
      match r1, hw, hdir, hfile with
      | none, hw, hdir, hfile =>
        refine ⟨r, fs', ?_, hoo.trans hoo', hskip, ?_⟩
        · simp [walkNames, Join_proper hname, os.Lstat, hres, hl, hw, hw']
        · intro hr n hn ho
          rcases List.mem_cons.1 hn with rfl | hn
          · obtain ⟨n', i', he, hl', hd', hm'⟩ := ho
            have hnn : n' = n := by simpa using he.symm
            subst hnn
            rw [hl] at hl'
            cases hl'
            have h1 := (hfile hd').2 rfl hm'
            rcases hoo' (resolve cwd imgdir ++ [n']) with h' | ⟨h', _⟩
            · exact h'.trans h1
            · exact h'
          · exact key n hn ho hr
      | some .SkipDir, hw, hdir, hfile =>
        have hd : info.isDir = true := by
          cases hd : info.isDir
          · exact absurd rfl (hfile hd).1
          · rfl
        have hfs : fs1 = fs := (hdir hd).2
        subst hfs
        refine ⟨r, fs', ?_, hoo', hskip, ?_⟩
        · simp [walkNames, Join_proper hname, os.Lstat, hres, hl, hw, hw', hd]
        · intro hr n hn ho
          rcases List.mem_cons.1 hn with rfl | hn
          · obtain ⟨n', i', he, hl', hd', hm'⟩ := ho
            have hnn : n' = n := by simpa using he.symm
            subst hnn
            rw [hl] at hl'
            cases hl'
            rw [hd] at hd'
            cases hd'
          · exact key n hn ho hr
      | some (.other e), hw, hdir, hfile =>
        refine ⟨some (.other e), fs1, ?_, hoo, by simp, by simp⟩
        simp [walkNames, Join_proper hname, os.Lstat, hres, hl, hw]

/-- The walk of `updateCodelab` over the asset directory. -/
theorem Walk_visit (cwd : Loc) (imgdir : Path) (imgmap : ImgMap) (fuel : Nat)
    (hf : 2 ≤ fuel) (fs : FS) :
    ∃ err fs', Walk cwd (visit cwd imgdir imgmap) fuel imgdir (fs, ()) =
        some (err, (fs', ())) ∧
      OnlyOrphansRemoved (resolve cwd imgdir) imgmap fs fs' ∧
      (err = none → (fs.lookup (resolve cwd imgdir)).map FileInfo.isDir = some true →
        ∀ name, properName name = true →
          Orphan (resolve cwd imgdir) imgmap fs (resolve cwd imgdir ++ [name]) →
          fs'.lookup (resolve cwd imgdir ++ [name]) = none) := by
  obtain ⟨k, rfl⟩ : ∃ k, fuel = k + 2 := ⟨fuel - 2, by omega⟩
  cases hl : fs.lookup (resolve cwd imgdir) with
  | none =>
    refine ⟨some ("lstat " ++ Path.text imgdir ++ ": no such file or directory"), fs, ?_,
      OnlyOrphansRemoved.refl _ _ _, by simp⟩
    simp [Walk, os.Lstat, hl, visit, walkResult]
  | some info =>
    cases hd : info.isDir
    · refine ⟨none, fs, ?_, OnlyOrphansRemoved.refl _ _ _, by simp [hd]⟩
      simp [Walk, os.Lstat, hl, walk, hd, visit, walkResult]
    · cases hr : info.readable
      · refine ⟨some ("open " ++ Path.text imgdir ++ ": permission denied"), fs, ?_,
          OnlyOrphansRemoved.refl _ _ _, by simp⟩
        simp [Walk, os.Lstat, hl, walk, hd, readDirNames, hr, visit, walkResult]
      · have hp : ∀ n ∈ (entryNames fs (resolve cwd imgdir)).insertionSort nameLE,
            properName n = true := by
          intro n hn
          rw [List.mem_insertionSort] at hn
          exact (mem_entryNames.1 hn).1
        obtain ⟨r, fs', hw, hoo, hskip, hgone⟩ :=
          walkNames_visit cwd imgdir imgmap k _ hp fs
        have hw2 : walk cwd (visit cwd imgdir imgmap) (k + 2) imgdir info (fs, ()) =
            some (r, (fs', ())) := by
          rw [walk]
          simp only [hd, readDirNames, hl, hr, visit]
          simpa using hw
        refine ⟨walkResult r, fs', ?_, hoo, ?_⟩
        · simp [Walk, os.Lstat, hl, hw2]
        · intro hres _ name hname ho
          have hr0 : r = none := by
            match r, hskip, hres with
            | none, _, _ => rfl
            | some (.other e), _, h => simp [walkResult] at h
            | some .SkipDir, h, _ => exact absurd rfl h
          refine hgone hr0 name ?_ ho
          rw [List.mem_insertionSort]
          obtain ⟨n', i', he, hl', _, _⟩ := ho
          exact mem_entryNames.2 ⟨hname, i', lookup_eq_some_mem hl'⟩

theorem stamp_overrides_Meta (env : Env) (pfx : String) (clab : codelab)
    (cm0 : types.ContextMeta) : (stamp clab (overrides env pfx cm0)).Meta = cm0.Meta := by
  unfold stamp overrides
  by_cases h1 : pfx = "" <;> by_cases h2 : env.globalGA = "" <;> simp [h1, h2]

theorem overrides_Meta (env : Env) (pfx : String) (cm0 : types.ContextMeta) :
    (overrides env pfx cm0).Meta = cm0.Meta := by
  unfold overrides
  by_cases h1 : pfx = "" <;> by_cases h2 : env.globalGA = "" <;> simp [h1, h2]

/-- What `updateCodelab` computes once every step before the cleanup succeeded. -/
theorem updateCodelab_of_stepsOk {env : Env} {dir : Path} {pfx : String} {fs : FS}
    {cm0 : types.ContextMeta} {clab : codelab} {client : Option Client} {imgmap : ImgMap}
    {steps : List String} {fs1 fs2 : FS}
    (h : StepsOk env dir pfx fs cm0 clab client imgmap steps fs1 fs2) (fuel : Nat) :
    updateCodelab env fuel dir pfx fs =
      if olddirOf env dir cm0 ≠ newdirOf env dir clab then
        some (some cm0.Meta, (os.RemoveAll env.cwd fs2 (olddirOf env dir cm0)).1,
          (os.RemoveAll env.cwd fs2 (olddirOf env dir cm0)).2)
      else
        match Walk env.cwd (visit env.cwd (imgdirOf env dir clab) imgmap) fuel
            (imgdirOf env dir clab) (fs2, ()) with
        | none => none
        | some (err, s) => some (some cm0.Meta, err, s.1) := by
  obtain ⟨h1, h2, h3, h4, h5⟩ := h
  have hold : olddirOf env dir (stamp clab (overrides env pfx cm0)) = olddirOf env dir cm0 := by
    simp [olddirOf, stamp_overrides_Meta]
  rw [stamp_overrides_Meta] at h4
  rw [overrides_Meta] at h2
  unfold updateCodelab
  simp only [h1, h2, h3, h4, h5, hold, stamp_overrides_Meta, overrides_Meta]

theorem lookup_filter_key (f : Loc → Bool) (fs : FS) (q : Loc) :
    (fs.filter (fun e => f e.1)).lookup q = if f q then fs.lookup q else none := by
  induction fs with
  | nil => simp
  | cons e fs ih =>
    obtain ⟨k, v⟩ := e
    by_cases hq : q = k
    · subst hq
      cases hf : f q <;> simp [List.filter_cons, hf, List.lookup_cons, ih]
    · have hb : (q == k) = false := by simpa using hq
      cases hf : f k <;> simp [List.filter_cons, hf, List.lookup_cons, ih, hb]

theorem blocked_of_prefix {fs : FS} {p q : Loc} (h : os.blocked fs p = false)
    (hpq : p <+: q) : os.blocked fs q = false := by
  unfold os.blocked at *
  rw [List.any_eq_false] at *
  intro e he
  have := h e he
  simp only [Bool.and_eq_true, List.isPrefixOf_iff_prefix, not_and] at *
  intro hqe
  exact this (hpq.trans hqe)

/-- A successful `os.RemoveAll` leaves nothing at or beneath the location the
path leads to and everything else as it was. -/
theorem lookup_RemoveAll {cwd : Loc} {fs : FS} {p : Path}
    (h : (os.RemoveAll cwd fs p).1 = none) (q : Loc) :
    (os.RemoveAll cwd fs p).2.lookup q =
      if resolve cwd p <+: q then none else fs.lookup q := by
  unfold os.RemoveAll at h ⊢
  by_cases hp : p = []
  · simp [hp] at h
  · simp only [hp, ↓reduceIte] at h ⊢
    cases hfind : fs.find? (fun e => (resolve cwd p).isPrefixOf e.1 && os.resists e) with
    | some e => simp [hfind] at h
    | none =>
      by_cases hdd : p.getLast? = some ".."
      · simp [hfind, hdd] at h
      · have hb : os.blocked fs (resolve cwd p) = false := by
          unfold os.blocked
          rw [List.any_eq_false]
          intro e he
          have := List.find?_eq_none.1 hfind e he
          simpa using this
        have hfil : fs.filter (fun e => !((resolve cwd p).isPrefixOf e.1) ||
              os.blocked fs e.1 || (decide (p.getLast? = some "..") && e.1 == resolve cwd p)) =
            fs.filter (fun e => (fun k : Loc => !((resolve cwd p).isPrefixOf k)) e.1) := by
          apply List.filter_congr
          intro e _
          cases hpe : (resolve cwd p).isPrefixOf e.1
          · simp [hpe]
          · have := blocked_of_prefix hb (List.isPrefixOf_iff_prefix.1 hpe)
            simp [hpe, this, hdd]
        rw [hfil, lookup_filter_key (fun k : Loc => !((resolve cwd p).isPrefixOf k))]
        by_cases hpq : resolve cwd p <+: q
        · simp [hpq]
        · simp [hpq]

/-- Whatever `os.RemoveAll` returns, it changes nothing outside the location the
path leads to. -/
theorem lookup_RemoveAll_frame (cwd : Loc) (fs : FS) (p : Path) (q : Loc)
    (h : ¬ resolve cwd p <+: q) :
    (os.RemoveAll cwd fs p).2.lookup q = fs.lookup q := by
  unfold os.RemoveAll
  by_cases hp : p = []
  · simp [hp]
  · simp only [hp, ↓reduceIte]
    have hfil : fs.filter (fun e => !((resolve cwd p).isPrefixOf e.1) || os.blocked fs e.1 ||
          (decide (p.getLast? = some "..") && e.1 == resolve cwd p)) =
        fs.filter (fun e =>
          (fun k : Loc => !((resolve cwd p).isPrefixOf k) || os.blocked fs k ||
            (decide (p.getLast? = some "..") && k == resolve cwd p)) e.1) := rfl
    rw [hfil, lookup_filter_key
      (fun k : Loc => !((resolve cwd p).isPrefixOf k) || os.blocked fs k ||
        (decide (p.getLast? = some "..") && k == resolve cwd p))]
    simp [h]

/-! ## Lemmas on `updateCodelab` as a whole -/

/-- Either `updateCodelab` hands back a nil identity with an error, or every step
before the cleanup succeeds. -/
theorem updateCodelab_cases (env : Env) (fuel : Nat) (dir : Path) (pfx : String) (fs : FS) :
    (∃ e fsX, updateCodelab env fuel dir pfx fs = some (none, some e, fsX)) ∨
    (∃ cm0 clab client imgmap steps fs1 fs2,
      StepsOk env dir pfx fs cm0 clab client imgmap steps fs1 fs2) := by
  cases h1 : readMeta env fs (filepath.Join dir env.metaFilename) with
  | error e => exact Or.inl ⟨e, fs, by simp [ updateCodelab, h1]⟩
  | ok cm0 =>
    cases h2 : env.slurpCodelab fs (overrides env pfx cm0).Meta.Source with
    | error e => exact Or.inl ⟨e, fs, by simp [ updateCodelab, h1, h2]⟩
    | ok clab =>
      cases h3 : clientFor env clab fs with
      | error e => exact Or.inl ⟨e, fs, by simp [ updateCodelab, h1, h2, h3]⟩
      | ok client =>
        cases h4 : env.slurpImages client (stamp clab (overrides env pfx cm0)).Meta.Source
            (imgdirOf env dir clab) clab.Codelab.Steps fs with
        | mk res fs1 =>
          cases res with
          | error e => exact Or.inl ⟨e, fs1, by simp [ updateCodelab, h1, h2, h3, h4]⟩
          | ok v =>
            obtain ⟨imgmap, steps⟩ := v
            cases h5 : env.writeCodelab (newdirOf env dir clab)
                { clab.Codelab with Steps := steps }
                (stamp clab (overrides env pfx cm0)).Context fs1 with
            | mk werr fs2 =>
              cases werr with
              | some e =>
                exact Or.inl ⟨e, fs2, by simp [ updateCodelab, h1, h2, h3, h4, h5]⟩
              | none =>
                exact Or.inr ⟨cm0, clab, client, imgmap, steps, fs1, fs2, h1, h2, h3, h4, h5⟩

/-- With fuel for two levels, `updateCodelab` returns. -/
theorem updateCodelab_total (env : Env) (fuel : Nat) (hfuel : 2 ≤ fuel) (dir : Path)
    (pfx : String) (fs : FS) : ∃ r, updateCodelab env fuel dir pfx fs = some r := by
  rcases updateCodelab_cases env fuel dir pfx fs with
    ⟨e, fsX, h⟩ | ⟨cm0, clab, client, imgmap, steps, fs1, fs2, h⟩
  · exact ⟨_, h⟩
  · rw [updateCodelab_of_stepsOk h fuel]
    split
    · exact ⟨_, rfl⟩
    · obtain ⟨err, fs', hW, -⟩ := Walk_visit env.cwd (imgdirOf env dir clab) imgmap fuel hfuel fs2
      simp only [hW]
      exact ⟨_, rfl⟩

/-- A nil identity never comes with a nil error. -/
theorem updateCodelab_nil_identity (env : Env) (fuel : Nat) (dir : Path) (pfx : String)
    (fs fs' : FS) (err : Option Error)
    (h : updateCodelab env fuel dir pfx fs = some (none, err, fs')) : err ≠ none := by
  rcases updateCodelab_cases env fuel dir pfx fs with
    ⟨e, fsX, h'⟩ | ⟨cm0, clab, client, imgmap, steps, fs1, fs2, hs⟩
  · rw [h'] at h
    simp only [Option.some.injEq, Prod.mk.injEq, true_and] at h
    rw [← h.1]
    simp
  · rw [updateCodelab_of_stepsOk hs fuel] at h
    split at h
    · simp at h
    · split at h <;> simp at h

/-! ## Lemmas on the scan -/

theorem length_le_depth {fs : FS} {p : Path} {info : FileInfo} (h : (p, info) ∈ fs) :
    p.length ≤ fs.depth := by
  unfold FS.depth
  induction fs with
  | nil => simp at h
  | cons e fs ih =>
    simp only [List.map_cons, List.foldr_cons]
    rcases List.mem_cons.1 h with h | h
    · subst h
      exact Nat.le_max_left _ _
    · exact (ih h).trans (Nat.le_max_right _ _)

/-- The closure of `walkPath` leaves the filesystem as it is. -/
theorem walkPathFn_fs (env : Env) (p : Path) (fi : Option FileInfo) (err : Option Error)
    (fs : FS) (acc : List Path) :
    ∃ r acc', walkPathFn env p fi err (fs, acc) = (r, (fs, acc')) := by
  unfold walkPathFn
  cases err with
  | some e => exact ⟨_, _, rfl⟩
  | none =>
    cases fi with
    | none => exact ⟨_, _, rfl⟩
    | some fi =>
      simp only
      split
      · exact ⟨_, _, rfl⟩
      · split
        · exact ⟨_, _, rfl⟩
        · exact ⟨_, _, rfl⟩

theorem walkNames_walkPathFn (env : Env) (fs : FS) (path : Path)
    (rec : Path → FileInfo → FS × List Path → Option (Option WalkErr × (FS × List Path)))
    (hrec : ∀ p' info' acc, fs.lookup (resolve env.cwd p') = some info' →
      (resolve env.cwd p').length = (resolve env.cwd path).length + 1 →
      ∃ r acc', rec p' info' (fs, acc) = some (r, (fs, acc')))
    (names : List String) (hp : ∀ n ∈ names, properName n = true) (acc : List Path) :
    ∃ r acc', walkNames env.cwd rec (walkPathFn env) path names (fs, acc) =
      some (r, (fs, acc')) := by
  induction names generalizing acc with
  | nil => exact ⟨none, acc, rfl⟩
  | cons name rest ih =>
    have hname : properName name = true := hp name (List.mem_cons_self _ _)
    have hrest : ∀ n ∈ rest, properName n = true := fun n hn => hp n (List.mem_cons_of_mem _ hn)
    have hres := resolve_concat env.cwd path hname
    cases hl : fs.lookup (resolve env.cwd path ++ [name]) with
    | none =>
      refine ⟨some (.other ("lstat " ++ Path.text (path ++ [name]) ++
        ": no such file or directory")), acc, ?_⟩
      simp [walkNames, Join_proper hname, os.Lstat, hres, hl, walkPathFn]
    | some info =>
      obtain ⟨r1, acc1, h1⟩ := hrec (path ++ [name]) info acc (hres ▸ hl) (by simp [hres])
      obtain ⟨r, acc', h⟩ := ih hrest acc1
      cases r1 with
      | none =>
        exact ⟨r, acc', by simp [walkNames, Join_proper hname, os.Lstat, hres, hl, h1, h]⟩
      | some e =>
        by_cases hc : (!info.isDir || e != .SkipDir) = true
        · exact ⟨some e, acc1,
            by simp [walkNames, Join_proper hname, os.Lstat, hres, hl, h1, hc]⟩
        · exact ⟨r, acc',
            by simp [walkNames, Join_proper hname, os.Lstat, hres, hl, h1, hc, h]⟩

theorem walk_walkPathFn (env : Env) (fs : FS) (n : Nat) :
    ∀ (p : Path) (info : FileInfo) (acc : List Path),
      fs.lookup (resolve env.cwd p) = some info →
      fs.depth < n + (resolve env.cwd p).length →
      ∃ r acc', walk env.cwd (walkPathFn env) n p info (fs, acc) =
        some (r, (fs, acc')) := by
  induction n with
  | zero =>
    intro p info acc hl hd
    have := length_le_depth (lookup_eq_some_mem hl)
    omega
  | succ n ih =>
    intro p info acc hl hd
    rw [walk]
    cases hdir : info.isDir
    · obtain ⟨r, acc', h⟩ := walkPathFn_fs env p (some info) none fs acc
      exact ⟨r, acc', by simp [h]⟩
    · simp only [Bool.not_true, Bool.false_eq_true, ↓reduceIte]
      cases hrd : readDirNames env.cwd fs p with
      | error err =>
        exact ⟨some (.other err), acc, by simp [walkPathFn]⟩
      | ok names =>
        have hfn : walkPathFn env p (some info) none (fs, acc) = (none, (fs, acc)) := by
          simp [walkPathFn, hdir]
        simp only [hfn]
        apply walkNames_walkPathFn
        · intro p' info' acc1 hl' hlen
          exact ih p' info' acc1 hl' (by omega)
        · intro nm hnm
          unfold readDirNames at hrd
          rw [hl] at hrd
          simp only [hdir, Bool.not_true, Bool.false_eq_true, ↓reduceIte] at hrd
          split at hrd
          · simp at hrd
          · simp only [Except.ok.injEq] at hrd
            subst hrd
            rw [List.mem_insertionSort] at hnm
            exact (mem_entryNames.1 hnm).1

/-- With more fuel than the filesystem is deep, `walkPath` returns. -/
theorem walkPath_total (env : Env) (fuel : Nat) (fs : FS) (root : Path)
    (hfuel : fs.depth < fuel) : ∃ ds err, walkPath env fuel fs root = some (ds, err) := by
  unfold walkPath Walk
  cases hl : fs.lookup (resolve env.cwd root) with
  | none => simp [os.Lstat, hl]
  | some info =>
    obtain ⟨r, acc', h⟩ := walk_walkPathFn env fs fuel root info [] hl (by omega)
    simp [os.Lstat, hl, h]

theorem unique_foldl (a acc : List Path) (hacc : acc.Nodup) :
    (a.foldl (fun res s => if s ∈ res then res else res ++ [s]) acc).Nodup ∧
    ∀ d, d ∈ a.foldl (fun res s => if s ∈ res then res else res ++ [s]) acc ↔
      d ∈ acc ∨ d ∈ a := by
  induction a generalizing acc with
  | nil => simp [hacc]
  | cons x xs ih =>
    simp only [List.foldl_cons]
    by_cases hx : x ∈ acc
    · simp only [hx, ↓reduceIte]
      obtain ⟨h1, h2⟩ := ih acc hacc
      refine ⟨h1, fun d => ?_⟩
      rw [h2 d, List.mem_cons]
      constructor
      · rintro (h | h)
        · exact Or.inl h
        · exact Or.inr (Or.inr h)
      · rintro (h | h | h)
        · exact Or.inl h
        · exact Or.inl (h ▸ hx)
        · exact Or.inr h
    · simp only [hx, ↓reduceIte]
      have hn : (acc ++ [x]).Nodup := by
        rw [List.nodup_append]
        exact ⟨hacc, by simp, by simpa using hx⟩
      obtain ⟨h1, h2⟩ := ih (acc ++ [x]) hn
      refine ⟨h1, fun d => ?_⟩
      rw [h2 d, List.mem_cons, List.mem_append, List.mem_singleton]
      tauto

theorem nodup_unique (a : List Path) : (unique a).Nodup :=
  (unique_foldl a [] List.nodup_nil).1

theorem mem_unique (a : List Path) (d : Path) : d ∈ unique a ↔ d ∈ a := by
  have := (unique_foldl a [] List.nodup_nil).2 d
  simpa [unique] using this

theorem count_eq_one_of_nodup {l : List Path} {d : Path} (hn : l.Nodup) (hd : d ∈ l) :
    l.count d = 1 := by
  induction l with
  | nil => simp at hd
  | cons x xs ih =>
    rw [List.nodup_cons] at hn
    rw [List.count_cons]
    rcases List.mem_cons.1 hd with rfl | h
    · simp [List.count_eq_zero.2 hn.1]
    · have hx : x ≠ d := fun hx => hn.1 (hx ▸ h)
      have hb : (x == d) = false := by simpa using hx
      simp [ih hn.2 h, hb]

/-- The receiving loop of `scanPaths` when every walk it meets succeeds. -/
theorem scanLoop_ok (env : Env) (fuel : Nat) (fs : FS) (arrival : List Path)
    (hok : ∀ r ∈ arrival, ∃ ds, walkPath env fuel fs r = some (ds, none)) (dirs : List Path) :
    ∃ all, scanLoop env fuel fs arrival dirs = some (.ok (unique all)) ∧
      ∀ d, d ∈ all ↔ d ∈ dirs ∨
        ∃ r ∈ arrival, ∃ ds, walkPath env fuel fs r = some (ds, none) ∧ d ∈ ds := by
  induction arrival generalizing dirs with
  | nil => exact ⟨dirs, rfl, by simp⟩
  | cons r rest ih =>
    obtain ⟨ds, hds⟩ := hok r (List.mem_cons_self _ _)
    obtain ⟨all, hall, hmem⟩ := ih (fun r' hr' => hok r' (List.mem_cons_of_mem _ hr')) (dirs ++ ds)
    refine ⟨all, by simp [scanLoop, hds, hall], fun d => ?_⟩
    rw [hmem d, List.mem_append]
    constructor
    · rintro ((h | h) | ⟨r', hr', ds', hw, hd⟩)
      · exact Or.inl h
      · exact Or.inr ⟨r, List.mem_cons_self _ _, ds, hds, h⟩
      · exact Or.inr ⟨r', List.mem_cons_of_mem _ hr', ds', hw, hd⟩
    · rintro (h | ⟨r', hr', ds', hw, hd⟩)
      · exact Or.inl (Or.inl h)
      · rcases List.mem_cons.1 hr' with rfl | hr'
        · rw [hds] at hw
          simp only [Option.some.injEq, Prod.mk.injEq, and_true] at hw
          subst hw
          exact Or.inl (Or.inr hd)
        · exact Or.inr ⟨r', hr', ds', hw, hd⟩

/-- The receiving loop of `scanPaths`: it ends with the directories when every
walk it meets succeeds, and otherwise with the error of the first failing root
it meets. -/
theorem scanLoop_cases (env : Env) (fuel : Nat) (fs : FS) (arrival : List Path)
    (htot : ∀ r ∈ arrival, ∃ ds err, walkPath env fuel fs r = some (ds, err))
    (dirs : List Path) :
    (∃ ds, scanLoop env fuel fs arrival dirs = some (.ok ds) ∧
      ∀ r ∈ arrival, ∃ ds', walkPath env fuel fs r = some (ds', none)) ∨
    (∃ pre r post ds e, arrival = pre ++ r :: post ∧
      (∀ r' ∈ pre, ∃ ds', walkPath env fuel fs r' = some (ds', none)) ∧
      walkPath env fuel fs r = some (ds, some e) ∧
      scanLoop env fuel fs arrival dirs = some (.error (r.text ++ ": " ++ e))) := by
  induction arrival generalizing dirs with
  | nil => exact Or.inl ⟨_, rfl, by simp⟩
  | cons r rest ih =>
    obtain ⟨ds, err, hw⟩ := htot r (List.mem_cons_self _ _)
    cases err with
    | some e =>
      exact Or.inr ⟨[], r, rest, ds, e, rfl, by simp, hw, by simp [scanLoop, hw]⟩
    | none =>
      rcases ih (fun r' hr' => htot r' (List.mem_cons_of_mem _ hr')) (dirs ++ ds) with
        ⟨ds2, h2, hall⟩ | ⟨pre, r', post, ds', e, harr, hpre, hw', h2⟩
      · refine Or.inl ⟨ds2, by simp [scanLoop, hw, h2], ?_⟩
        intro r' hr'
        rcases List.mem_cons.1 hr' with rfl | hr'
        · exact ⟨ds, hw⟩
        · exact hall r' hr'
      · refine Or.inr ⟨r :: pre, r', post, ds', e, by simp [harr], ?_, hw',
          by simp [scanLoop, hw, h2]⟩
        intro r'' hr''
        rcases List.mem_cons.1 hr'' with rfl | hr''
        · exact ⟨ds, hw⟩
        · exact hpre r'' hr''

theorem countP_add_countP_not (l : List result) :
    l.countP (fun res => res.err.isSome) + l.countP (fun res => !res.err.isSome) =
      l.length := by
  induction l with
  | nil => rfl
  | cons x xs ih =>
    rw [List.countP_cons, List.countP_cons, List.length_cons]
    cases hx : x.err.isSome
    · simp only [hx, Bool.false_eq_true, ↓reduceIte, Bool.not_false]
      omega
    · simp only [hx, ↓reduceIte, Bool.not_true, Bool.false_eq_true]
      omega

/-- The goroutines of `CmdUpdate` all run, each on the filesystem the one before
it left. -/
theorem runUnits_spec (env : Env) (fuel : Nat) (hfuel : 2 ≤ fuel) (pfx : String)
    (ds : List Path) (fs : FS) :
    ∃ rs fs', runUnits env fuel pfx ds fs = some (rs, fs') ∧
      UnitsRun env fuel pfx ds fs rs fs' := by
  induction ds generalizing fs with
  | nil => exact ⟨[], fs, rfl, UnitsRun.nil fs⟩
  | cons d rest ih =>
    obtain ⟨⟨m, err, fs1⟩, hu⟩ := updateCodelab_total env fuel hfuel d pfx fs
    obtain ⟨rs, fs2, hr, hrun⟩ := ih fs1
    exact ⟨⟨d, m, err⟩ :: rs, fs2, by simp [runUnits, hu, hr], UnitsRun.cons hu hrun⟩

theorem UnitsRun.dirs {env : Env} {fuel : Nat} {pfx : String} {ds : List Path}
    {fs fs' : FS} {rs : List result} (h : UnitsRun env fuel pfx ds fs rs fs') :
    rs.map result.dir = ds := by
  induction h with
  | nil => rfl
  | cons _ _ ih => simp [ih]

theorem UnitsRun.ran {env : Env} {fuel : Nat} {pfx : String} {ds : List Path}
    {fs fs' : FS} {rs : List result} (h : UnitsRun env fuel pfx ds fs rs fs') :
    ∀ res ∈ rs, ∃ fs0 fs1,
      updateCodelab env fuel res.dir pfx fs0 = some (res.meta, res.err, fs1) := by
  induction h with
  | nil => simp
  | cons hd _ ih =>
    intro res hres
    rcases List.mem_cons.1 hres with rfl | hres
    · exact ⟨_, _, hd⟩
    · exact ih res hres

/-! ## Properties of the update pipeline -/

/-- C1 (orphan removal). When every step of `updateCodelab` before the cleanup
succeeded, the previous and the new canonical directory are equal, and the walk
over the asset directory returned no error, then the non-directory entries
directly inside the asset directory (at the location its path leads to from the
working directory) afterwards are exactly those that were there when the
cleanup started (in the well-formed filesystem `writeCodelab` left) and whose
base name is a key of the asset map. -/
theorem updateCodelab_orphan_removal (env : Env) (fuel : Nat) (dir : Path) (pfx : String)
    (fs : FS) (cm0 : types.ContextMeta) (clab : codelab) (client : Option Client)
    (imgmap : ImgMap) (steps : List String) (fs1 fs2 fs' : FS) (m : Option types.Meta)
    (hsteps : StepsOk env dir pfx fs cm0 clab client imgmap steps fs1 fs2)
    (hsame : olddirOf env dir cm0 = newdirOf env dir clab)
    (hwf : fs2.WF) (hfuel : 2 ≤ fuel)
    (hok : updateCodelab env fuel dir pfx fs = some (m, none, fs')) :
    ∀ name, isFileAt fs' (resolve env.cwd (imgdirOf env dir clab) ++ [name]) ↔
      (isFileAt fs2 (resolve env.cwd (imgdirOf env dir clab) ++ [name]) ∧
        imgmap.lookup name ≠ none) := by
  obtain ⟨err, fs'', hW, hoo, hgone⟩ := Walk_visit env.cwd (imgdirOf env dir clab) imgmap fuel hfuel fs2
  rw [updateCodelab_of_stepsOk hsteps fuel] at hok
  simp only [hsame, ne_eq, not_true_eq_false, ↓reduceIte, hW, Option.some.injEq,
    Prod.mk.injEq] at hok
  obtain ⟨-, herr, hfs⟩ := hok
  subst hfs
  intro name
  unfold isFileAt
  constructor
  · intro hf
    have hsame' : fs''.lookup (resolve env.cwd (imgdirOf env dir clab) ++ [name]) =
        fs2.lookup (resolve env.cwd (imgdirOf env dir clab) ++ [name]) := by
      rcases hoo (resolve env.cwd (imgdirOf env dir clab) ++ [name]) with h | ⟨h, _⟩
      · exact h
      · rw [h] at hf; simp at hf
    rw [hsame'] at hf
    refine ⟨hf, ?_⟩
    intro hm
    cases hl : fs2.lookup (resolve env.cwd (imgdirOf env dir clab) ++ [name]) with
    | none => rw [hl] at hf; simp at hf
    | some info =>
      have hmem := lookup_eq_some_mem hl
      obtain ⟨hproper, hparent⟩ := hwf _ hmem
      have hd : info.isDir = false := by rw [hl] at hf; simpa using hf
      have := hgone herr (by simpa using hparent (by simp)) name
        (hproper name (by simp)) ⟨name, info, rfl, hl, hd, hm⟩
      rw [hsame', hl] at this
      simp at this
  · rintro ⟨hf, hm⟩
    rcases hoo (resolve env.cwd (imgdirOf env dir clab) ++ [name]) with
      h | ⟨_, n', i', he, _, _, hm'⟩
    · rw [h]; exact hf
    · have : name = n' := by simpa using he
      subst this
      exact absurd hm' hm

/-- C2 (reconciliation destroys nothing but orphans). When every step of
`updateCodelab` before the cleanup succeeded and the previous and the new
canonical directory are equal, `updateCodelab` returns (with or without an
error), and against the filesystem `fs2` the cleanup started from: every
location either keeps its entry or held a non-directory direct entry of the
asset directory whose base name is not a key of the map; the asset directory
itself keeps its entry, and the visit hands it back before looking at the map; a
subdirectory of the asset directory and everything beneath it keep their
entries; and every entry whose base name is a key of the map keeps its entry.
The asset directory is at the location its path leads to from the working
directory. -/
theorem updateCodelab_removes_only_orphans (env : Env) (fuel : Nat) (dir : Path)
    (pfx : String) (fs : FS) (cm0 : types.ContextMeta) (clab : codelab)
    (client : Option Client) (imgmap : ImgMap) (steps : List String) (fs1 fs2 : FS)
    (hsteps : StepsOk env dir pfx fs cm0 clab client imgmap steps fs1 fs2)
    (hsame : olddirOf env dir cm0 = newdirOf env dir clab) (hfuel : 2 ≤ fuel) :
    ∃ err fs', updateCodelab env fuel dir pfx fs = some (some cm0.Meta, err, fs') ∧
      (∀ q, fs'.lookup q = fs2.lookup q ∨
        (fs'.lookup q = none ∧
          ∃ name info, q = resolve env.cwd (imgdirOf env dir clab) ++ [name] ∧
            fs2.lookup q = some info ∧ info.isDir = false ∧ imgmap.lookup name = none)) ∧
      fs'.lookup (resolve env.cwd (imgdirOf env dir clab)) =
        fs2.lookup (resolve env.cwd (imgdirOf env dir clab)) ∧
      (∀ fi err s, visit env.cwd (imgdirOf env dir clab) imgmap (imgdirOf env dir clab)
        fi err s = (err.map .other, s)) ∧
      (∀ name info rest,
        fs2.lookup (resolve env.cwd (imgdirOf env dir clab) ++ [name]) = some info →
        info.isDir = true →
        fs'.lookup (resolve env.cwd (imgdirOf env dir clab) ++ name :: rest) =
          fs2.lookup (resolve env.cwd (imgdirOf env dir clab) ++ name :: rest)) ∧
      (∀ name, imgmap.lookup name ≠ none →
        fs'.lookup (resolve env.cwd (imgdirOf env dir clab) ++ [name]) =
          fs2.lookup (resolve env.cwd (imgdirOf env dir clab) ++ [name])) := by
  obtain ⟨err, fs', hW, hoo, -⟩ :=
    Walk_visit env.cwd (imgdirOf env dir clab) imgmap fuel hfuel fs2
  refine ⟨err, fs', ?_, hoo, ?_, ?_, ?_, ?_⟩
  · rw [updateCodelab_of_stepsOk hsteps fuel]
    simp [hsame, hW]
  · rcases hoo (resolve env.cwd (imgdirOf env dir clab)) with h | ⟨_, n, _, he, _⟩
    · exact h
    · exact absurd he.symm (concat_ne_self _ _)
  · intro fi err s
    simp [visit]
  · intro name info rest hl hd
    rcases hoo (resolve env.cwd (imgdirOf env dir clab) ++ name :: rest) with
      h | ⟨_, n, i, he, hl', hd', _⟩
    · exact h
    · have he' := List.append_cancel_left he
      simp only [List.cons.injEq] at he'
      obtain ⟨rfl, rfl⟩ := he'
      rw [hl] at hl'
      cases hl'
      rw [hd] at hd'
      cases hd'
  · intro name hm
    rcases hoo (resolve env.cwd (imgdirOf env dir clab) ++ [name]) with
      h | ⟨_, n, _, he, _, _, hm'⟩
    · exact h
    · have : name = n := by simpa using he
      subst this
      exact absurd hm' hm

/-- Identity change. When every step of `updateCodelab` before the cleanup
succeeded and the previous canonical directory differs from the new one, the
result is `os.RemoveAll` of the previous directory applied to the filesystem
`writeCodelab` left, for every fuel (the walk over the asset directory is not
run); when that removal succeeds, nothing is left at or beneath the previous
directory, every location outside it keeps its entry, and so does everything at
or beneath the new canonical directory provided neither directory lies inside
the other. When the two directories are equal, no directory entry is removed. -/
theorem updateCodelab_identity_change (env : Env) (fuel : Nat) (dir : Path) (pfx : String)
    (fs : FS) (cm0 : types.ContextMeta) (clab : codelab) (client : Option Client)
    (imgmap : ImgMap) (steps : List String) (fs1 fs2 : FS)
    (hsteps : StepsOk env dir pfx fs cm0 clab client imgmap steps fs1 fs2) :
    (olddirOf env dir cm0 ≠ newdirOf env dir clab →
      updateCodelab env fuel dir pfx fs =
        some (some cm0.Meta, (os.RemoveAll env.cwd fs2 (olddirOf env dir cm0)).1,
          (os.RemoveAll env.cwd fs2 (olddirOf env dir cm0)).2) ∧
      ((os.RemoveAll env.cwd fs2 (olddirOf env dir cm0)).1 = none →
        (∀ q, resolve env.cwd (olddirOf env dir cm0) <+: q →
          (os.RemoveAll env.cwd fs2 (olddirOf env dir cm0)).2.lookup q = none) ∧
        (∀ q, ¬ resolve env.cwd (olddirOf env dir cm0) <+: q →
          (os.RemoveAll env.cwd fs2 (olddirOf env dir cm0)).2.lookup q = fs2.lookup q) ∧
        (¬ resolve env.cwd (olddirOf env dir cm0) <+: resolve env.cwd (newdirOf env dir clab) →
          ¬ resolve env.cwd (newdirOf env dir clab) <+: resolve env.cwd (olddirOf env dir cm0) →
          ∀ q, resolve env.cwd (newdirOf env dir clab) <+: q →
            (os.RemoveAll env.cwd fs2 (olddirOf env dir cm0)).2.lookup q =
              fs2.lookup q))) ∧
    (olddirOf env dir cm0 = newdirOf env dir clab → 2 ≤ fuel →
      ∃ err fs', updateCodelab env fuel dir pfx fs = some (some cm0.Meta, err, fs') ∧
        ∀ q info, fs2.lookup q = some info → info.isDir = true →
          fs'.lookup q = some info) := by
  constructor
  · intro hne
    refine ⟨?_, fun hok => ⟨?_, ?_, ?_⟩⟩
    · rw [updateCodelab_of_stepsOk hsteps fuel]
      simp [hne]
    · intro q hq
      rw [lookup_RemoveAll hok]
      simp [hq]
    · intro q hq
      exact lookup_RemoveAll_frame _ _ _ _ hq
    · intro h1 h2 q hq
      apply lookup_RemoveAll_frame
      intro hoq
      rcases Nat.le_total (resolve env.cwd (olddirOf env dir cm0)).length
        (resolve env.cwd (newdirOf env dir clab)).length with hl | hl
      · exact h1 (List.prefix_of_prefix_length_le hoq hq hl)
      · exact h2 (List.prefix_of_prefix_length_le hq hoq hl)
  · intro hsame hfuel
    obtain ⟨err, fs', hW, hoo, -⟩ :=
      Walk_visit env.cwd (imgdirOf env dir clab) imgmap fuel hfuel fs2
    refine ⟨err, fs', ?_, ?_⟩
    · rw [updateCodelab_of_stepsOk hsteps fuel]
      simp [hsame, hW]
    · intro q info hl hd
      rcases hoo q with h | ⟨_, n, i, _, hl', hd', _⟩
      · rw [h, hl]
      · rw [hl] at hl'
        cases hl'
        rw [hd] at hd'
        cases hd'

/-- C7 (returned identity), amended. When `updateCodelab` returns a nil error,
the identity it returns is the `Meta` of the stored record as `readMeta` loaded
it. -/
theorem updateCodelab_returns_stored_identity (env : Env) (fuel : Nat) (dir : Path)
    (pfx : String) (fs fs' : FS) (m : Option types.Meta)
    (hok : updateCodelab env fuel dir pfx fs = some (m, none, fs')) :
    ∃ cm0, readMeta env fs (filepath.Join dir env.metaFilename) = .ok cm0 ∧
      m = some cm0.Meta := by
  rcases updateCodelab_cases env fuel dir pfx fs with
    ⟨e, fsX, h⟩ | ⟨cm0, clab, client, imgmap, steps, fs1, fs2, hs⟩
  · rw [h] at hok
    simp at hok
  · refine ⟨cm0, hs.1, ?_⟩
    rw [updateCodelab_of_stepsOk hs fuel] at hok
    split at hok
    · simp only [Option.some.injEq, Prod.mk.injEq] at hok
      exact hok.1.symm
    · split at hok
      · simp at hok
      · simp only [Option.some.injEq, Prod.mk.injEq] at hok
        exact hok.1.symm

/-- C8 (fail fast without side effects). If loading the metadata record fails,
`updateCodelab` returns a nil identity, that very error and the filesystem it
was given; and so it does if the record loads and fetching the source fails. -/
theorem updateCodelab_fail_fast (env : Env) (fuel : Nat) (dir : Path) (pfx : String)
    (fs : FS) :
    (∀ e, readMeta env fs (filepath.Join dir env.metaFilename) = .error e →
      updateCodelab env fuel dir pfx fs = some (none, some e, fs)) ∧
    (∀ cm0 e, readMeta env fs (filepath.Join dir env.metaFilename) = .ok cm0 →
      env.slurpCodelab fs (overrides env pfx cm0).Meta.Source = .error e →
      updateCodelab env fuel dir pfx fs = some (none, some e, fs)) := by
  constructor
  · intro e h
    simp [ updateCodelab, h]
  · intro cm0 e h1 h2
    simp [ updateCodelab, h1, h2]

/-- C9 (`readMeta`). When the file reads and its content decodes to `cm`,
`readMeta` returns a record whose `Format` is `html` if `cm.Format` is empty and
`cm.Format` otherwise, and whose other fields are those of `cm`. When the file is
missing, cannot be read, or its content does not decode, `readMeta` returns that
error and no record. -/
theorem readMeta_format_default (env : Env) (fs : FS) (file : Path) :
    (∀ b cm, ioutil.ReadFile env.cwd fs file = .ok b → env.unmarshal b = .ok cm →
      ∃ r, readMeta env fs file = .ok r ∧
        r.Context.Format = (if cm.Context.Format = "" then "html" else cm.Context.Format) ∧
        r.Context.Prefix = cm.Context.Prefix ∧ r.Context.MainGA = cm.Context.MainGA ∧
        r.Context.Updated = cm.Context.Updated ∧ r.Meta = cm.Meta) ∧
    (fs.lookup (resolve env.cwd file) = none → ∃ e, readMeta env fs file = .error e) ∧
    (∀ e, ioutil.ReadFile env.cwd fs file = .error e → readMeta env fs file = .error e) ∧
    (∀ b e, ioutil.ReadFile env.cwd fs file = .ok b → env.unmarshal b = .error e →
      readMeta env fs file = .error e) := by
  refine ⟨?_, ?_, ?_, ?_⟩
  · intro b cm h1 h2
    by_cases hf : cm.Context.Format = ""
    · exact ⟨{ cm with Context := { cm.Context with Format := "html" } },
        by simp only [readMeta, h1, h2, hf, ↓reduceIte], by simp [hf]⟩
    · exact ⟨cm, by simp only [readMeta, h1, h2, hf, ↓reduceIte], by simp [hf]⟩
  · intro h
    exact ⟨"open " ++ file.text ++ ": no such file or directory",
      by simp only [readMeta, ioutil.ReadFile, h]⟩
  · intro e h
    simp only [readMeta, h]
  · intro b e h1 h2
    simp only [readMeta, h1, h2]

/-- C10 (old directory removed only after a successful write). For every run of
`updateCodelab`, one of two things holds. Either every step before the cleanup
succeeded (metadata load, source fetch, client construction when the source is a
Google Doc, asset retrieval, write to the new canonical directory), the stored
identity is returned, and the filesystem returned is the one `writeCodelab` left
with the previous directory removed by `os.RemoveAll` (directories different) or
with nothing but orphaned assets removed (directories equal). Or `updateCodelab`
returns a nil identity with the error of the step that failed, and the
filesystem it returns is the one the collaborators left: the given one when the
load, the fetch or the client construction failed, the one `slurpImages` or
`writeCodelab` handed back when these failed; so nothing was removed by
`updateCodelab` itself. -/
theorem updateCodelab_removal_only_after_write (env : Env) (fuel : Nat) (dir : Path)
    (pfx : String) (fs : FS) (hfuel : 2 ≤ fuel) :
    (∃ cm0 clab client imgmap steps fs1 fs2,
      StepsOk env dir pfx fs cm0 clab client imgmap steps fs1 fs2 ∧
      ∃ err fs', updateCodelab env fuel dir pfx fs = some (some cm0.Meta, err, fs') ∧
        (olddirOf env dir cm0 ≠ newdirOf env dir clab →
          fs' = (os.RemoveAll env.cwd fs2 (olddirOf env dir cm0)).2) ∧
        (olddirOf env dir cm0 = newdirOf env dir clab →
          OnlyOrphansRemoved (resolve env.cwd (imgdirOf env dir clab)) imgmap fs2 fs')) ∨
    (∃ e fsX, updateCodelab env fuel dir pfx fs = some (none, some e, fsX) ∧
      ((readMeta env fs (filepath.Join dir env.metaFilename) = .error e ∧ fsX = fs) ∨
       ∃ cm0, readMeta env fs (filepath.Join dir env.metaFilename) = .ok cm0 ∧
        ((env.slurpCodelab fs (overrides env pfx cm0).Meta.Source = .error e ∧ fsX = fs) ∨
         ∃ clab, env.slurpCodelab fs (overrides env pfx cm0).Meta.Source = .ok clab ∧
          ((clab.typ = .srcGoogleDoc ∧ env.driveClient fs = .error e ∧ fsX = fs) ∨
           ∃ client, clientFor env clab fs = .ok client ∧
            (env.slurpImages client (stamp clab (overrides env pfx cm0)).Meta.Source
                (imgdirOf env dir clab) clab.Codelab.Steps fs = (.error e, fsX) ∨
             ∃ imgmap steps fs1,
              env.slurpImages client (stamp clab (overrides env pfx cm0)).Meta.Source
                (imgdirOf env dir clab) clab.Codelab.Steps fs = (.ok (imgmap, steps), fs1) ∧
              env.writeCodelab (newdirOf env dir clab) { clab.Codelab with Steps := steps }
                (stamp clab (overrides env pfx cm0)).Context fs1 = (some e, fsX)))))) := by
  cases h1 : readMeta env fs (filepath.Join dir env.metaFilename) with
  | error e =>
    exact Or.inr ⟨e, fs, by simp [ updateCodelab, h1], Or.inl ⟨rfl, rfl⟩⟩
  | ok cm0 =>
    cases h2 : env.slurpCodelab fs (overrides env pfx cm0).Meta.Source with
    | error e =>
      exact Or.inr ⟨e, fs, by simp [ updateCodelab, h1, h2], Or.inr ⟨cm0, rfl, Or.inl ⟨h2, rfl⟩⟩⟩
    | ok clab =>
      cases h3 : clientFor env clab fs with
      | error e =>
        refine Or.inr ⟨e, fs, by simp [ updateCodelab, h1, h2, h3],
          Or.inr ⟨cm0, rfl, Or.inr ⟨clab, h2, Or.inl ?_⟩⟩⟩
        unfold clientFor at h3
        split at h3
        · rename_i ht
          split at h3
          · rename_i e' hd
            simp only [Except.error.injEq] at h3
            subst h3
            exact ⟨ht, hd, rfl⟩
          · simp at h3
        · simp at h3
      | ok client =>
        cases h4 : env.slurpImages client (stamp clab (overrides env pfx cm0)).Meta.Source
            (imgdirOf env dir clab) clab.Codelab.Steps fs with
        | mk res fs1 =>
          cases res with
          | error e =>
            exact Or.inr ⟨e, fs1, by simp [ updateCodelab, h1, h2, h3, h4],
              Or.inr ⟨cm0, rfl, Or.inr ⟨clab, h2, Or.inr ⟨client, h3, Or.inl h4⟩⟩⟩⟩
          | ok v =>
            obtain ⟨imgmap, steps⟩ := v
            cases h5 : env.writeCodelab (newdirOf env dir clab)
                { clab.Codelab with Steps := steps }
                (stamp clab (overrides env pfx cm0)).Context fs1 with
            | mk werr fs2 =>
              cases werr with
              | some e =>
                exact Or.inr ⟨e, fs2, by simp [ updateCodelab, h1, h2, h3, h4, h5],
                  Or.inr ⟨cm0, rfl, Or.inr ⟨clab, h2, Or.inr ⟨client, h3,
                    Or.inr ⟨imgmap, steps, fs1, h4, h5⟩⟩⟩⟩⟩
              | none =>
                have hs : StepsOk env dir pfx fs cm0 clab client imgmap steps fs1 fs2 :=
                  ⟨h1, h2, h3, h4, h5⟩
                refine Or.inl ⟨cm0, clab, client, imgmap, steps, fs1, fs2, hs, ?_⟩
                by_cases hd : olddirOf env dir cm0 = newdirOf env dir clab
                · obtain ⟨err, fs', hW, hoo, -⟩ :=
                    Walk_visit env.cwd (imgdirOf env dir clab) imgmap fuel hfuel fs2
                  refine ⟨err, fs', ?_, fun hne => absurd hd hne, fun _ => hoo⟩
                  rw [updateCodelab_of_stepsOk hs fuel]
                  simp [hd, hW]
                · refine ⟨(os.RemoveAll env.cwd fs2 (olddirOf env dir cm0)).1,
                    (os.RemoveAll env.cwd fs2 (olddirOf env dir cm0)).2, ?_, fun _ => rfl,
                    fun h => absurd h hd⟩
                  rw [updateCodelab_of_stepsOk hs fuel]
                  simp [hd]

/-- De-duplication by spelling. When the per-root walks all succeed, `scanPaths`
returns, in whatever order the results arrive, a list without duplicates whose
members are exactly the paths some root's `walkPath` returned; so a path
returned for two roots occurs in it exactly once. -/
theorem scanPaths_dedup (env : Env) (fuel : Nat) (fs : FS) (roots arrival : List Path)
    (hperm : arrival.Perm roots)
    (hok : ∀ r ∈ roots, ∃ ds, walkPath env fuel fs r = some (ds, none)) :
    ∃ dirs, scanPaths env fuel fs arrival = some (.ok dirs) ∧ dirs.Nodup ∧
      (∀ d, d ∈ dirs ↔
        ∃ r ∈ roots, ∃ ds, walkPath env fuel fs r = some (ds, none) ∧ d ∈ ds) ∧
      (∀ r1 ∈ roots, ∀ r2 ∈ roots, ∀ ds1 ds2 d,
        walkPath env fuel fs r1 = some (ds1, none) → d ∈ ds1 →
        walkPath env fuel fs r2 = some (ds2, none) → d ∈ ds2 → dirs.count d = 1) := by
  obtain ⟨all, hall, hmem⟩ :=
    scanLoop_ok env fuel fs arrival (fun r hr => hok r (hperm.mem_iff.1 hr)) []
  have hmem' : ∀ d, d ∈ unique all ↔
      ∃ r ∈ roots, ∃ ds, walkPath env fuel fs r = some (ds, none) ∧ d ∈ ds := by
    intro d
    rw [mem_unique, hmem d]
    constructor
    · rintro (h | ⟨r, hr, h⟩)
      · simp at h
      · exact ⟨r, hperm.mem_iff.1 hr, h⟩
    · rintro ⟨r, hr, h⟩
      exact Or.inr ⟨r, hperm.mem_iff.2 hr, h⟩
  refine ⟨unique all, hall, nodup_unique all, hmem', ?_⟩
  intro r1 hr1 _ _ ds1 _ d h1 hd1 _ _
  exact count_eq_one_of_nodup (nodup_unique all) ((hmem' d).2 ⟨r1, hr1, ds1, h1, hd1⟩)

/-- C5 (scan errors are total). With fuel for the depth of the filesystem and in
whatever order the results arrive: if the walk of at least one root returns an
error, `scanPaths` returns no directories but an error whose message is a failing
root, then `": "`, then that root's error, the root being the first failing one
in the order of arrival; and `scanPaths` returns directories (a nil error) only
if the walk of every root succeeded. -/
theorem scanPaths_error_is_total (env : Env) (fuel : Nat) (fs : FS)
    (roots arrival : List Path) (hperm : arrival.Perm roots) (hfuel : fs.depth < fuel) :
    ((∃ r ∈ roots, ∃ ds e, walkPath env fuel fs r = some (ds, some e)) →
      ∃ r ∈ roots, ∃ ds e, walkPath env fuel fs r = some (ds, some e) ∧
        scanPaths env fuel fs arrival = some (.error (r.text ++ ": " ++ e)) ∧
        ∃ pre post, arrival = pre ++ r :: post ∧
          ∀ r' ∈ pre, ∃ ds', walkPath env fuel fs r' = some (ds', none)) ∧
    (∀ dirs, scanPaths env fuel fs arrival = some (.ok dirs) →
      ∀ r ∈ roots, ∃ ds, walkPath env fuel fs r = some (ds, none)) := by
  have hcases := scanLoop_cases env fuel fs arrival
    (fun r _ => walkPath_total env fuel fs r hfuel) []
  constructor
  · rintro ⟨r, hr, ds, e, hw⟩
    rcases hcases with ⟨_, _, hall⟩ | ⟨pre, r', post, ds', e', harr, hpre, hw', hs⟩
    · obtain ⟨ds', hw'⟩ := hall r (hperm.mem_iff.2 hr)
      rw [hw] at hw'
      simp at hw'
    · have hr' : r' ∈ arrival := by simp [harr]
      exact ⟨r', hperm.mem_iff.1 hr', ds', e', hw', hs, pre, post, harr, hpre⟩
  · intro dirs hs r hr
    rcases hcases with ⟨_, _, hall⟩ | ⟨_, _, _, _, _, _, _, _, hs'⟩
    · exact hall r (hperm.mem_iff.2 hr)
    · unfold scanPaths at hs
      rw [hs] at hs'
      simp at hs'

/-- C6 (partial failure isolation). When the scan found the non-empty list
`dirs`, `CmdUpdate` returns after reporting one result per directory, in
whatever order the units deliver. The results are those of `updateCodelab` on
the directories in that order, each run on the filesystem the one before it
left, starting from the filesystem `CmdUpdate` was given. A result with an error
is reported as a failure with that directory and error, a result without one as
a success with the returned ID; so there are as many failure reports as units
whose `updateCodelab` returned an error and as many success reports as the
others, and when exactly one unit fails, there are `dirs.length - 1` success
reports and one failure report. -/
theorem CmdUpdate_reports_every_unit (env : Env) (fuel : Nat) (pfx : String)
    (args : List Path) (scanOrder unitOrder : List Path → List Path) (fs : FS)
    (dirs : List Path) (hfuel : 2 ≤ fuel)
    (hscan : scanPaths env fuel fs (scanOrder (if args.length = 0 then [[]] else args)) =
      some (.ok dirs))
    (hne : dirs ≠ []) (hperm : (unitOrder dirs).Perm dirs) :
    ∃ (rs : List result) (fs' : FS), CmdUpdate env fuel pfx args scanOrder unitOrder fs =
        some (.returned (rs.map report) fs') ∧
      UnitsRun env fuel pfx (unitOrder dirs) fs rs fs' ∧
      (rs.map result.dir).Perm dirs ∧
      (∀ res ∈ rs, (∀ e, res.err = some e → report res = .failure res.dir e) ∧
        (res.err = none → ∃ m, res.meta = some m ∧ report res = .success m.ID)) ∧
      (rs.map report).countP Report.isFailure = rs.countP (fun res => res.err.isSome) ∧
      (rs.map report).countP Report.isSuccess = rs.countP (fun res => !res.err.isSome) ∧
      (rs.countP (fun res => res.err.isSome) = 1 →
        (rs.map report).countP Report.isSuccess = dirs.length - 1 ∧
        (rs.map report).countP Report.isFailure = 1) := by
  obtain ⟨rs, fs', hrun, hrel⟩ := runUnits_spec env fuel hfuel pfx (unitOrder dirs) fs
  have hmap := hrel.dirs
  have hall := hrel.ran
  have hrep : ∀ res ∈ rs, (∀ e, res.err = some e → report res = .failure res.dir e) ∧
      (res.err = none → ∃ m, res.meta = some m ∧ report res = .success m.ID) := by
    intro res hres
    constructor
    · intro e he
      simp [report, he]
    · intro he
      obtain ⟨fs0, fs1, hu⟩ := hall res hres
      cases hm : res.meta with
      | none =>
        rw [hm, he] at hu
        exact absurd rfl (updateCodelab_nil_identity env fuel res.dir pfx fs0 fs1 none hu)
      | some m => exact ⟨m, rfl, by simp [report, he, hm]⟩
  have hfail : ∀ res ∈ rs, (report res).isFailure = res.err.isSome := by
    intro res hres
    cases he : res.err with
    | none =>
      obtain ⟨m, _, hr⟩ := (hrep res hres).2 he
      simp [hr, Report.isFailure]
    | some e => simp [(hrep res hres).1 e he, Report.isFailure]
  have hsucc : ∀ res ∈ rs, (report res).isSuccess = !res.err.isSome := by
    intro res hres
    cases he : res.err with
    | none =>
      obtain ⟨m, _, hr⟩ := (hrep res hres).2 he
      simp [hr, Report.isSuccess]
    | some e => simp [(hrep res hres).1 e he, Report.isSuccess]
  have hlen : rs.length = dirs.length := by
    have := congrArg List.length hmap
    rw [List.length_map] at this
    rw [this, hperm.length_eq]
  have hd0 : ¬ dirs.length = 0 := by
    intro h
    exact hne (List.length_eq_zero.1 h)
  have hF : (rs.map report).countP Report.isFailure = rs.countP (fun res => res.err.isSome) := by
    rw [List.countP_map]
    exact List.countP_congr (fun res hres => by simp [hfail res hres])
  have hS : (rs.map report).countP Report.isSuccess =
      rs.countP (fun res => !res.err.isSome) := by
    rw [List.countP_map]
    exact List.countP_congr (fun res hres => by simp [hsucc res hres])
  refine ⟨rs, fs', ?_, hrel, hmap ▸ hperm, hrep, hF, hS, ?_⟩
  · unfold CmdUpdate
    simp only [hscan, hd0, ↓reduceIte, hrun]
  · intro hone
    have htot := countP_add_countP_not rs
    rw [hF, hS, hone]
    rw [hone] at htot
    omega

/-! ## The statements on the small workspace -/

/-- Witness of C1, twice: the unit `out/lab` updated from the root of the
filesystem, and the same unit updated as `.` by a process working in `out/lab`
(its base directory is then `..` and its asset directory `../lab/img`). The
asset directory holds `a.png` and `b.png` and the asset map holds `a.png`; the
update leaves `a.png` and not `b.png`. -/
theorem updateCodelab_orphan_removal_witness :
    (StepsOk demoEnv ["out", "lab"] "" demoFS demoLabMeta demoLabClab none
        [("a.png", "a.png")] ["step"] demoLabFS1 demoLabFS2 ∧
      updateCodelab demoEnv 2 ["out", "lab"] "" demoFS =
        some (some ⟨"lab", "lab"⟩, none, demoLabFS3) ∧
      isFileAt demoLabFS2 ["out", "lab", "img", "b.png"] ∧
      isFileAt demoLabFS3 ["out", "lab", "img", "a.png"] ∧
      ¬ isFileAt demoLabFS3 ["out", "lab", "img", "b.png"]) ∧
    (StepsOk (demoEnvAt ["out", "lab"]) [] "" demoFS demoLabMeta demoLabClab none
        [("a.png", "a.png")] ["step"] demoLabFS1 demoLabFS2 ∧
      imgdirOf (demoEnvAt ["out", "lab"]) [] demoLabClab = ["..", "lab", "img"] ∧
      updateCodelab (demoEnvAt ["out", "lab"]) 2 [] "" demoFS =
        some (some ⟨"lab", "lab"⟩, none, demoLabFS3) ∧
      isFileAt demoLabFS3 ["out", "lab", "img", "a.png"] ∧
      ¬ isFileAt demoLabFS3 ["out", "lab", "img", "b.png"]) :=
  have h := updateCodelab_orphan_removal demoEnv 2 ["out", "lab"] "" demoFS demoLabMeta
    demoLabClab none [("a.png", "a.png")] ["step"] demoLabFS1 demoLabFS2 demoLabFS3
    (some ⟨"lab", "lab"⟩) ⟨rfl, rfl, rfl, rfl, rfl⟩ rfl (by decide) (by decide) rfl
  have h2 := updateCodelab_orphan_removal (demoEnvAt ["out", "lab"]) 2 [] "" demoFS
    demoLabMeta demoLabClab none [("a.png", "a.png")] ["step"] demoLabFS1 demoLabFS2
    demoLabFS3 (some ⟨"lab", "lab"⟩) ⟨rfl, rfl, rfl, rfl, rfl⟩ rfl (by decide) (by decide)
    rfl
  ⟨⟨⟨rfl, rfl, rfl, rfl, rfl⟩, rfl, by decide, (h "a.png").2 ⟨by decide, by decide⟩,
      fun hb => ((h "b.png").1 hb).2 rfl⟩,
    ⟨⟨rfl, rfl, rfl, rfl, rfl⟩, rfl, rfl, (h2 "a.png").2 ⟨by decide, by decide⟩,
      fun hb => ((h2 "b.png").1 hb).2 rfl⟩⟩

/-- Witness of C2, for the unit `out/lab` updated as `.` by a process working in
`out/lab`: the update removes `out/lab/img/b.png`, and nothing but orphans of
`out/lab/img`. -/
theorem updateCodelab_removes_only_orphans_witness :
    updateCodelab (demoEnvAt ["out", "lab"]) 2 [] "" demoFS =
      some (some ⟨"lab", "lab"⟩, none, demoLabFS3) ∧
    demoLabFS2.lookup ["out", "lab", "img", "b.png"] = some (mkFile "png") ∧
    demoLabFS3.lookup ["out", "lab", "img", "b.png"] = none ∧
    ∃ err fs', updateCodelab (demoEnvAt ["out", "lab"]) 2 [] "" demoFS =
        some (some demoLabMeta.Meta, err, fs') ∧
      (∀ q, fs'.lookup q = demoLabFS2.lookup q ∨
        (fs'.lookup q = none ∧ ∃ name info, q = ["out", "lab", "img"] ++ [name] ∧
          demoLabFS2.lookup q = some info ∧ info.isDir = false ∧
          List.lookup name [("a.png", "a.png")] = none)) ∧
      fs'.lookup ["out", "lab", "img"] = demoLabFS2.lookup ["out", "lab", "img"] ∧
      (∀ fi err s, visit ["out", "lab"] ["..", "lab", "img"] [("a.png", "a.png")]
        ["..", "lab", "img"] fi err s = (err.map .other, s)) ∧
      (∀ name info rest, demoLabFS2.lookup (["out", "lab", "img"] ++ [name]) = some info →
        info.isDir = true →
        fs'.lookup (["out", "lab", "img"] ++ name :: rest) =
          demoLabFS2.lookup (["out", "lab", "img"] ++ name :: rest)) ∧
      (∀ name, List.lookup name [("a.png", "a.png")] ≠ none →
        fs'.lookup (["out", "lab", "img"] ++ [name]) =
          demoLabFS2.lookup (["out", "lab", "img"] ++ [name])) :=
  ⟨rfl, by decide, by decide,
    updateCodelab_removes_only_orphans (demoEnvAt ["out", "lab"]) 2 [] "" demoFS
      demoLabMeta demoLabClab none [("a.png", "a.png")] ["step"] demoLabFS1 demoLabFS2
      ⟨rfl, rfl, rfl, rfl, rfl⟩ rfl (by decide)⟩

/-- C3 (identity change), on a unit whose new canonical directory lies inside the
previous one: the stored ID of `out/foo` is `foo` and the upstream ID is now
`foo/bar`. Every step succeeds, the directories differ, `updateCodelab` returns
a nil error, and the page `writeCodelab` wrote to the new directory `out/foo/bar`
is gone, with the new directory itself. -/
theorem updateCodelab_identity_change_nested :
    StepsOk demoEnv ["out", "foo"] "" demoFS demoFooMeta demoFooClab none
      [("a.png", "a.png")] ["step"] demoFooFS1 demoFooFS2 ∧
    olddirOf demoEnv ["out", "foo"] demoFooMeta = ["out", "foo"] ∧
    newdirOf demoEnv ["out", "foo"] demoFooClab = ["out", "foo", "bar"] ∧
    updateCodelab demoEnv 2 ["out", "foo"] "" demoFS =
      some (some ⟨"foo", "foo"⟩, none, demoFooFS3) ∧
    isFileAt demoFooFS2 ["out", "foo", "bar", "index.html"] ∧
    demoFooFS3.lookup ["out", "foo", "bar", "index.html"] = none ∧
    demoFooFS3.lookup ["out", "foo", "bar"] = none :=
  ⟨⟨rfl, rfl, rfl, rfl, rfl⟩, rfl, rfl, rfl, by decide, by decide, by decide⟩

/-- Identity change between two directories side by side: updating `out/old`,
whose ID is now `new`, removes `out/old` with everything beneath it and leaves
`out/new` as written. -/
theorem updateCodelab_identity_change_witness :
    StepsOk demoEnv ["out", "old"] "" demoFS demoOldMeta demoOldClab none
      [("a.png", "a.png")] ["step"] demoOldFS1 demoOldFS2 ∧
    updateCodelab demoEnv 2 ["out", "old"] "" demoFS =
      some (some ⟨"old", "old"⟩, none, demoOldFS3) ∧
    (∀ q, ["out", "old"] <+: q → demoOldFS3.lookup q = none) ∧
    (∀ q, ["out", "new"] <+: q → demoOldFS3.lookup q = demoOldFS2.lookup q) :=
  have h := (updateCodelab_identity_change demoEnv 2 ["out", "old"] "" demoFS demoOldMeta
    demoOldClab none [("a.png", "a.png")] ["step"] demoOldFS1 demoOldFS2
    ⟨rfl, rfl, rfl, rfl, rfl⟩).1 (by decide)
  ⟨⟨rfl, rfl, rfl, rfl, rfl⟩, h.1, (h.2 rfl).1, (h.2 rfl).2.2 (by decide) (by decide)⟩

/-- De-duplication by spelling, on the roots `.` and `out` scanned from the root
of the filesystem: both walks spell the four unit directories the same way, and
the scan yields each of them once. -/
theorem scanPaths_dedup_witness :
    scanPaths demoEnv 6 demoFS [["out"], []] =
      some (.ok [["out", "bad"], ["out", "foo"], ["out", "lab"], ["out", "old"]]) ∧
    ∃ dirs, scanPaths demoEnv 6 demoFS [["out"], []] = some (.ok dirs) ∧ dirs.Nodup ∧
      (∀ d, d ∈ dirs ↔ ∃ r ∈ [[], ["out"]], ∃ ds,
        walkPath demoEnv 6 demoFS r = some (ds, none) ∧ d ∈ ds) ∧
      (∀ r1 ∈ [[], ["out"]], ∀ r2 ∈ [[], ["out"]], ∀ ds1 ds2 d,
        walkPath demoEnv 6 demoFS r1 = some (ds1, none) → d ∈ ds1 →
        walkPath demoEnv 6 demoFS r2 = some (ds2, none) → d ∈ ds2 → dirs.count d = 1) :=
  ⟨rfl, scanPaths_dedup demoEnv 6 demoFS [[], ["out"]] [["out"], []] (by decide)
    (fun r hr => by
      rcases List.mem_cons.1 hr with rfl | hr
      · exact ⟨_, rfl⟩
      · rcases List.mem_cons.1 hr with rfl | hr
        · exact ⟨_, rfl⟩
        · simp at hr)⟩

/-- Witness of C5: the root `nope` does not exist; the scan of `.` and `nope`
fails with an error naming a failing root. -/
theorem scanPaths_error_is_total_witness :
    ∃ r ∈ ([[], ["nope"]] : List Path), ∃ ds e,
      walkPath demoEnv 6 demoFS r = some (ds, some e) ∧
      scanPaths demoEnv 6 demoFS [["nope"], []] = some (.error (r.text ++ ": " ++ e)) ∧
      ∃ pre post, [["nope"], []] = pre ++ r :: post ∧
        ∀ r' ∈ pre, ∃ ds', walkPath demoEnv 6 demoFS r' = some (ds', none) :=
  (scanPaths_error_is_total demoEnv 6 demoFS [[], ["nope"]] [["nope"], []]
    (by decide) (by decide)).1
    ⟨["nope"], by simp, [], "lstat nope: no such file or directory", rfl⟩

/-- Witness of C6: with no arguments, `CmdUpdate` scans `.`, finds the four units
and, the units delivering in reverse order, reports `old`, `lab` and `foo` as
updated and `out/bad`, whose record does not decode, as failed: three successes
and one failure, the count for exactly one failing unit. -/
theorem CmdUpdate_reports_every_unit_witness :
    scanPaths demoEnv 6 demoFS [[]] =
      some (.ok [["out", "bad"], ["out", "foo"], ["out", "lab"], ["out", "old"]]) ∧
    ∃ (rs : List result) (fs' : FS),
      CmdUpdate demoEnv 6 "" [] id List.reverse demoFS =
        some (.returned [.success "old", .success "lab", .success "foo",
          .failure ["out", "bad"] "invalid character b looking for beginning of value"]
          fs') ∧
      rs.map report = [.success "old", .success "lab", .success "foo",
        .failure ["out", "bad"] "invalid character b looking for beginning of value"] ∧
      UnitsRun demoEnv 6 ""
        [["out", "old"], ["out", "lab"], ["out", "foo"], ["out", "bad"]] demoFS rs fs' ∧
      rs.countP (fun res => res.err.isSome) = 1 ∧
      (rs.map report).countP Report.isSuccess = 3 ∧
      (rs.map report).countP Report.isFailure = 1 := by
  refine ⟨rfl, ?_⟩
  obtain ⟨rs, fs', hcmd, hrun, -, -, hF, -, hone⟩ :=
    CmdUpdate_reports_every_unit demoEnv 6 "" [] id List.reverse demoFS
      [["out", "bad"], ["out", "foo"], ["out", "lab"], ["out", "old"]]
      (by decide) rfl (by decide) (by decide)
  have heval : ∃ fs'', CmdUpdate demoEnv 6 "" [] id List.reverse demoFS =
      some (.returned [.success "old", .success "lab", .success "foo",
        .failure ["out", "bad"] "invalid character b looking for beginning of value"]
        fs'') := ⟨_, rfl⟩
  obtain ⟨fs'', heval⟩ := heval
  rw [hcmd] at heval
  simp only [Option.some.injEq, Outcome.returned.injEq] at heval
  obtain ⟨hreps, hfs⟩ := heval
  have hcount : rs.countP (fun res => res.err.isSome) = 1 := by
    rw [← hF, hreps]
    decide
  refine ⟨rs, fs', ?_, hreps, hrun, hcount, ?_, ?_⟩
  · rw [hcmd, hreps]
  · exact (hone hcount).1
  · exact (hone hcount).2

/-- Counterexample to C7 as stated: the stored record of `out/old` has the ID
`old`, the freshly parsed source has the ID `new`; the update succeeds and
returns the identity with the ID `old`. -/
theorem returned_identity_counterexample :
    readMeta demoEnv demoFS ["out", "old", "codelab.json"] = .ok demoOldMeta ∧
    demoEnv.slurpCodelab demoFS demoOldMeta.Meta.Source = .ok demoOldClab ∧
    demoOldClab.Codelab.Meta.ID = "new" ∧
    updateCodelab demoEnv 2 ["out", "old"] "" demoFS =
      some (some ⟨"old", "old"⟩, none, demoOldFS3) ∧
    (⟨"old", "old"⟩ : types.Meta) ≠ demoOldClab.Codelab.Meta :=
  ⟨rfl, rfl, rfl, rfl, by decide⟩

/-- Witness of C7 (amended): the identity returned for `out/old` is the stored
one. -/
theorem updateCodelab_returns_stored_identity_witness :
    ∃ cm0, readMeta demoEnv demoFS (filepath.Join ["out", "old"] demoEnv.metaFilename) =
        .ok cm0 ∧ some (⟨"old", "old"⟩ : types.Meta) = some cm0.Meta :=
  updateCodelab_returns_stored_identity demoEnv 2 ["out", "old"] "" demoFS demoOldFS3
    (some ⟨"old", "old"⟩) rfl

/-- Witness of C8: the record of `out/bad` does not decode, and the source of `x`
cannot be fetched; both updates hand back the error and the untouched
filesystem. -/
theorem updateCodelab_fail_fast_witness :
    updateCodelab demoEnv 2 ["out", "bad"] "" demoFS =
      some (none, some "invalid character b looking for beginning of value", demoFS) ∧
    updateCodelab demoEnv 2 ["x"] "" demoGoneFS =
      some (none, some "fetch: not found", demoGoneFS) :=
  ⟨(updateCodelab_fail_fast demoEnv 2 ["out", "bad"] "" demoFS).1 _ rfl,
   (updateCodelab_fail_fast demoEnv 2 ["x"] "" demoGoneFS).2
     ⟨⟨"html", "", "", none⟩, ⟨"gone", "gone"⟩⟩ _ rfl rfl⟩

/-- Witness of C9: the record of `out/lab` decodes with an empty `Format`, which
`readMeta` sets to `html`; a missing file gives an error. -/
theorem readMeta_format_default_witness :
    (∃ r, readMeta demoEnv demoFS ["out", "lab", "codelab.json"] = .ok r ∧
      r.Context.Format = "html" ∧ r.Context.Prefix = "" ∧ r.Context.MainGA = "" ∧
      r.Context.Updated = none ∧ r.Meta = ⟨"lab", "lab"⟩) ∧
    (∃ e, readMeta demoEnv demoFS ["out", "nope", "codelab.json"] = .error e) :=
  ⟨(readMeta_format_default demoEnv demoFS ["out", "lab", "codelab.json"]).1 "lab"
     ⟨⟨"", "", "", none⟩, ⟨"lab", "lab"⟩⟩ rfl rfl,
   (readMeta_format_default demoEnv demoFS ["out", "nope", "codelab.json"]).2.1 rfl⟩

/-- Witness of C10: the record of `out/bad` does not decode, so the run ends in
the second case, at the first step, with the filesystem untouched. -/
theorem updateCodelab_removal_only_after_write_witness :
    updateCodelab demoEnv 2 ["out", "bad"] "" demoFS =
      some (none, some "invalid character b looking for beginning of value", demoFS) ∧
    ((∃ cm0 clab client imgmap steps fs1 fs2,
      StepsOk demoEnv ["out", "bad"] "" demoFS cm0 clab client imgmap steps fs1 fs2 ∧
      ∃ err fs', updateCodelab demoEnv 2 ["out", "bad"] "" demoFS =
          some (some cm0.Meta, err, fs') ∧
        (olddirOf demoEnv ["out", "bad"] cm0 ≠ newdirOf demoEnv ["out", "bad"] clab →
          fs' = (os.RemoveAll demoEnv.cwd fs2 (olddirOf demoEnv ["out", "bad"] cm0)).2) ∧
        (olddirOf demoEnv ["out", "bad"] cm0 = newdirOf demoEnv ["out", "bad"] clab →
          OnlyOrphansRemoved (resolve demoEnv.cwd (imgdirOf demoEnv ["out", "bad"] clab))
            imgmap fs2 fs')) ∨
    (∃ e fsX, updateCodelab demoEnv 2 ["out", "bad"] "" demoFS = some (none, some e, fsX) ∧
      ((readMeta demoEnv demoFS (filepath.Join ["out", "bad"] demoEnv.metaFilename) =
          .error e ∧ fsX = demoFS) ∨
       ∃ cm0, readMeta demoEnv demoFS (filepath.Join ["out", "bad"] demoEnv.metaFilename) =
          .ok cm0 ∧
        ((demoEnv.slurpCodelab demoFS (overrides demoEnv "" cm0).Meta.Source = .error e ∧
            fsX = demoFS) ∨
         ∃ clab, demoEnv.slurpCodelab demoFS (overrides demoEnv "" cm0).Meta.Source =
            .ok clab ∧
          ((clab.typ = .srcGoogleDoc ∧ demoEnv.driveClient demoFS = .error e ∧
              fsX = demoFS) ∨
           ∃ client, clientFor demoEnv clab demoFS = .ok client ∧
            (demoEnv.slurpImages client (stamp clab (overrides demoEnv "" cm0)).Meta.Source
                (imgdirOf demoEnv ["out", "bad"] clab) clab.Codelab.Steps demoFS =
                (.error e, fsX) ∨
             ∃ imgmap steps fs1,
              demoEnv.slurpImages client
                (stamp clab (overrides demoEnv "" cm0)).Meta.Source
                (imgdirOf demoEnv ["out", "bad"] clab) clab.Codelab.Steps demoFS =
                (.ok (imgmap, steps), fs1) ∧
              demoEnv.writeCodelab (newdirOf demoEnv ["out", "bad"] clab)
                { clab.Codelab with Steps := steps }
                (stamp clab (overrides demoEnv "" cm0)).Context fs1 =
                (some e, fsX))))))) :=
  ⟨rfl, updateCodelab_removal_only_after_write demoEnv 2 ["out", "bad"] "" demoFS
    (by decide)⟩

end Claat
